import Mathlib

/-!
Verification of the zstd-style decompression witness generator of this
repository against its specification.

The decoder under verification (the `process` witness generator driven by the
test circuit in `aggregator/src/tests/literals_header.rs`) is exercised by the
repository only through its tests; the decoder body itself is modelled here
from the specification, faithfully to its data model (section 3), component
design (section 4: frame and block parsing, all four literals-block kinds,
the normalized-distribution tables, the backward-read sequence bitstream and
the sequence executor) and error-handling design (section 7).  Where the
specification fixes an interface and a failure condition but not a byte-level
format (the entropy code's table description, the sequence count and
compression-mode encodings, the normalized-distribution header), the model
completes the format with the simplest deterministic choice and the doc
comment of the definition records that completion.  The literals-header table
construction and the downstream consistency check mirror
`TestLiteralsHeaderCircuit::synthesize` and the `UnsoundCase` variants of the
test source.
-/

namespace ZstdDecode

/-- Semantic role of a single witness row, one case per decode phase
(closed tagged variant, spec section 9). -/
inductive ZstdTag where
  | FrameHeader
  | BlockHeader
  | LiteralsHeader
  | LiteralsRawBytes
  | SequencesHeader
  | FseTable
  | SequencesData
  | Padding
  deriving DecidableEq, Repr

/-- Literals block type, spec section 3: `block_type ∈ {Raw, RunLength,
Compressed, Treeless}`. -/
inductive LitBlockType where
  | Raw
  | RunLength
  | Compressed
  | Treeless
  deriving DecidableEq, Repr

/-- Error kinds of the decoder, spec section 7. -/
inductive DecodeError where
  | MalformedHeader
  | UnsupportedBlockType
  | HuffmanDecodeFailure
  | FseTableOverflow
  | CorruptedOffset
  | TruncatedInput
  deriving DecidableEq, Repr

/-- One record of the produced trace, spec section 3 (`WitnessRow`). -/
structure WitnessRow where
  tag : ZstdTag
  block_idx : Nat
  byte_idx : Nat
  value_byte : Nat
  regenerated_size_so_far : Nat
  is_padding : Bool
  deriving DecidableEq, Repr

/-- Decoded literals header, spec section 3 (`LiteralsHeader`). -/
structure LiteralsHeader where
  block_type : LitBlockType
  size_format : Nat
  regenerated_size : Nat
  compressed_size : Option Nat
  deriving DecidableEq, Repr

/-- Per-block metadata, spec section 3 (`Block`); `regen_size` is the
regenerated size recorded in the block's literals header (part of the
"per-block metadata (type, sizes, index)" of section 6). -/
structure Block where
  block_idx : Nat
  is_last : Bool
  block_type : LitBlockType
  block_size : Nat
  regen_size : Nat
  deriving DecidableEq, Repr

/-- One decoded sequence instruction, spec section 3 (`Sequence`). -/
structure Sequence where
  literal_length : Nat
  match_length : Nat
  offset : Nat
  deriving DecidableEq, Repr

/-- One state's worth of an FSE decode table, spec section 3 (`FseTable`):
`state → (symbol, baseline, num_extra_bits)`. -/
structure FseEntry where
  symbol : Nat
  baseline : Nat
  num_extra_bits : Nat
  deriving DecidableEq, Repr

/-- An FSE decode table, spec section 3: the accuracy log and the
state-indexed entry list of size `2 ^ accuracy_log`. -/
structure FseTable where
  accuracy_log : Nat
  entries : List FseEntry
  deriving DecidableEq, Repr

/-- Aggregate result of one decode call, spec section 6: the ordered witness
rows, the flat decoded literal bytes, the per-block metadata, the ordered
sequence list and the reconstructed output. -/
structure MultiBlockProcessResult where
  witness_rows : List WitnessRow
  literal_bytes : List Nat
  block_info_arr : List Block
  sequences : List Sequence
  output : List Nat
  deriving DecidableEq, Repr

/-- Boolean success test for `Except`. -/
def isOkB : Except DecodeError MultiBlockProcessResult → Bool
  | .ok _ => true
  | .error _ => false

/-- Little-endian value of a byte list. -/
def leVal : List Nat → Nat
  | [] => 0
  | b :: bs => b + 256 * leVal bs

/-- Literals block type encoded in the two low bits of byte0 of a literals
header (spec 4.1: bits `[0:2)` of byte 0). -/
def litBlockTypeOf (b : Nat) : LitBlockType :=
  match b % 4 with
  | 0 => .Raw
  | 1 => .RunLength
  | 2 => .Compressed
  | _ => .Treeless

/-- Byte count of a `Compressed`/`Treeless` literals header of size format
`sf` (spec 4.1). -/
def lhCompBytes (sf : Nat) : Nat := if sf ≤ 1 then 3 else sf + 2

/-- Field width (in bits) of the regenerated- and compressed-size fields of a
`Compressed`/`Treeless` literals header of size format `sf` (spec 4.1). -/
def lhCompWidth (sf : Nat) : Nat := if sf ≤ 1 then 10 else 4 * sf + 6

/-- Modelled from the spec: `LiteralsHeaderDecoder` (section 4.1), which is
not part of the sources under `src/` (only its test caller is).  Byte 0 holds
`block_type` in bits `[0:2)` and `size_format` in bits `[2:4)`.  For
`Raw`/`RunLength`: `size_format ∈ {0,2}` gives a 1-byte header with a 5-bit
regenerated size (bits `[3:8)`), `size_format = 1` a 2-byte header with a
12-bit size and `size_format = 3` a 3-byte header with a 20-bit size, fields
little-endian after the control bits.  For `Compressed`/`Treeless`:
`size_format ∈ {0,1}` gives a 3-byte header with 10-bit fields,
`size_format = 2` a 4-byte header with 14-bit fields and `size_format = 3` a
5-byte header with 18-bit fields, regenerated size then compressed size packed
little-endian immediately after the 4 control bits.  Returns the header and
the number of bytes consumed; fails with `MalformedHeader` when the size
format needs more bytes than are available. -/
def decodeLiteralsHeader : List Nat → Except DecodeError (LiteralsHeader × Nat)
  | [] => .error .MalformedHeader
  | b0 :: rest =>
    if b0 % 4 ≤ 1 then
      if b0 / 4 % 4 % 2 = 0 then
        .ok (⟨litBlockTypeOf b0, b0 / 4 % 4, b0 / 8, none⟩, 1)
      else if b0 / 4 % 4 = 1 then
        match rest with
        | [] => .error .MalformedHeader
        | b1 :: _ => .ok (⟨litBlockTypeOf b0, b0 / 4 % 4, b0 / 16 + 16 * b1, none⟩, 2)
      else
        match rest with
        | b1 :: b2 :: _ =>
          .ok (⟨litBlockTypeOf b0, b0 / 4 % 4, b0 / 16 + 16 * b1 + 4096 * b2, none⟩, 3)
        | _ => .error .MalformedHeader
    else
      if lhCompBytes (b0 / 4 % 4) ≤ rest.length + 1 then
        .ok (⟨litBlockTypeOf b0, b0 / 4 % 4,
              leVal ((b0 :: rest).take (lhCompBytes (b0 / 4 % 4))) / 16 %
                2 ^ lhCompWidth (b0 / 4 % 4),
              some (leVal ((b0 :: rest).take (lhCompBytes (b0 / 4 % 4))) / 16 /
                2 ^ lhCompWidth (b0 / 4 % 4) % 2 ^ lhCompWidth (b0 / 4 % 4))⟩,
             lhCompBytes (b0 / 4 % 4))
      else .error .MalformedHeader

/-- Modelled from the spec: `WitnessRowEmitter` (section 2), one row per
consumed input byte; `byte_idx` is the 1-based position in the compressed
stream, here `pos` is the 0-based position of the first byte of `bs`. -/
def byteRows (t : ZstdTag) (k : Nat) : Nat → Nat → List Nat → List WitnessRow
  | _, _, [] => []
  | pos, rso, b :: bs => ⟨t, k, pos + 1, b, rso, false⟩ :: byteRows t k (pos + 1) rso bs

/-- Modelled from the spec: rows of a literals header (section 4.1); each
consumed header byte yields one `LiteralsHeader` row and the running
regenerated size is finalized (becomes `rn`) on the header's last byte, the
earlier header rows still carrying the previous running size `ro`. -/
def lhRowsOf (k ro rn : Nat) : Nat → List Nat → List WitnessRow
  | _, [] => []
  | pos, [b] => [⟨.LiteralsHeader, k, pos + 1, b, rn, false⟩]
  | pos, b :: b' :: bs =>
    ⟨.LiteralsHeader, k, pos + 1, b, ro, false⟩ :: lhRowsOf k ro rn (pos + 1) (b' :: bs)

/-- Bits of one byte, most significant first. -/
def byteBitsMsb (b : Nat) : List Nat :=
  [b / 128 % 2, b / 64 % 2, b / 32 % 2, b / 16 % 2, b / 8 % 2, b / 4 % 2, b / 2 % 2, b % 2]

/-- Value of a bit list read most-significant-bit first. -/
def bitsVal (l : List Nat) : Nat := l.foldl (fun a b => 2 * a + b) 0

/-- Reads `n` bits off the front of a bit list, returning their value and the
remaining bits; bits past the end of the list read as 0 (the bit length of the
sequences bitstream is not constrained by the spec, so the model zero-fills an
exhausted reader instead of inventing an error the spec does not name). -/
def readBits (n : Nat) (bits : List Nat) : Nat × List Nat :=
  (bitsVal (bits.take n), bits.drop n)

/-- Modelled from the spec: the single bit reader of the sequence decoder
(section 4.4) is "consumed from the end of the sequences section backward";
the bit order within each byte is a completion (most significant first). -/
def backBits (bytes : List Nat) : List Nat :=
  bytes.reverse.flatMap byteBitsMsb

/-- Modelled from the spec: the canonical-prefix-code decode of the entropy
literal bodies (section 4.2).  The spec fixes the decoder's interface (the
declared `compressed_size` input bytes in, decoded symbols out, a failure
exactly when the symbol count mismatches `regenerated_size`) but no byte-level
description of the table, which it says is built once per frame; the code is
completed as the canonical code of the uniform distribution — every codeword
8 bits, each consumed byte decoding to its own value — under which the
once-per-frame table is a constant and its reuse by `Treeless` blocks is
state-free. -/
def huffDecode : List Nat → List Nat
  | [] => []
  | b :: bs => bitsVal (byteBitsMsb b) :: huffDecode bs

/-- Floor base-2 logarithm by structural recursion (fuel-bounded so that it
evaluates by kernel reduction). -/
def log2fuel : Nat → Nat → Nat
  | 0, _ => 0
  | fuel + 1, n => if n ≤ 1 then 0 else log2fuel fuel (n / 2) + 1

/-- Floor base-2 logarithm. -/
def log2n (n : Nat) : Nat := log2fuel n n

/-- Modelled from the spec: the sequential-placement table construction of
`FseTableBuilder` (section 4.3) — each symbol's occurrences fill consecutive
states (the placement stride and the baseline/extra-bit arithmetic are a
completion; the spec fixes only that the table maps each state to
`(symbol, baseline, num_extra_bits)` and has one state per unit of
probability). -/
def fseEntries (al : Nat) (weights : List Nat) : List FseEntry :=
  (List.range weights.length).flatMap (fun j =>
    (List.range (weights.getD j 0)).map (fun i =>
      ⟨j, i * 2 ^ (al - log2n (weights.getD j 0)), al - log2n (weights.getD j 0)⟩))

/-- Modelled from the spec: the "predefined" decode table of section 4.4.
The spec does not give the predefined distributions; the table is completed
as the trivial one-state table (accuracy log 0, a single unit-weight
symbol). -/
def predefinedFse : FseTable := ⟨0, fseEntries 0 [1]⟩

/-- The three per-class decode tables (literal-length, offset, match-length
order). -/
def predefTriple : FseTable × FseTable × FseTable :=
  (predefinedFse, predefinedFse, predefinedFse)

/-- Modelled from the spec: the normalized-distribution header of
`FseTableBuilder` (section 4.3) — per-symbol weights plus an accuracy log,
failing with `FseTableOverflow` when the probabilities do not sum to the
table size `2 ^ accuracy_log`.  The byte format is a completion: one
accuracy-log byte, one symbol-count byte, then one weight byte per symbol
(the spec's signed weights are modelled by their non-negative byte values).
Returns the built table and the bytes consumed. -/
def parseFseDesc : List Nat → Except DecodeError (FseTable × Nat)
  | al :: cnt :: rest =>
    if cnt ≤ rest.length then
      if (rest.take cnt).sum = 2 ^ al then
        .ok (⟨al, fseEntries al (rest.take cnt)⟩, 2 + cnt)
      else .error .FseTableOverflow
    else .error .TruncatedInput
  | _ => .error .TruncatedInput

/-- Modelled from the spec: one symbol class's table selection (section 4.4):
mode 0 is "predefined", mode 3 is "reused" (the class's table as left by the
previous section), mode 2 is "freshly built from an FseTable"; the remaining
selector value names none of the spec's three options and is rejected. -/
def parseModeTable (mode : Nat) (prev : FseTable) (bytes : List Nat) :
    Except DecodeError (FseTable × Nat) :=
  if mode = 0 then .ok (predefinedFse, 0)
  else if mode = 3 then .ok (prev, 0)
  else if mode = 2 then parseFseDesc bytes
  else .error .UnsupportedBlockType

/-- Modelled from the spec: the three per-class table selections of the
sequences section, parsed in sequence (literal-length, offset, match-length);
returns the table triple and the table-description bytes consumed. -/
def parseSeqTables (mLL mOF mML : Nat) (fse : FseTable × FseTable × FseTable)
    (bytes : List Nat) :
    Except DecodeError ((FseTable × FseTable × FseTable) × Nat) :=
  match parseModeTable mLL fse.1 bytes with
  | .error e => .error e
  | .ok (tLL, c1) =>
    match parseModeTable mOF fse.2.1 (bytes.drop c1) with
    | .error e => .error e
    | .ok (tOF, c2) =>
      match parseModeTable mML fse.2.2 ((bytes.drop c1).drop c2) with
      | .error e => .error e
      | .ok (tML, c3) => .ok ((tLL, tOF, tML), c1 + c2 + c3)

/-- Entry of a table at a state (out-of-range states read the zero entry). -/
def entryAt (t : FseTable) (st : Nat) : FseEntry :=
  t.entries.getD st ⟨0, 0, 0⟩

/-- Modelled from the spec: the per-sequence decode loop of `SequenceDecoder`
(section 4.4) — each decoded code is converted to its value via
`baseline + extra raw bits` read from the single backward bit reader, then the
three states are refreshed from the reader (the read order — offset and
match-length extra bits before literal-length's, then the three state
refreshes — is a completion). -/
def decodeSeqLoop :
    Nat → FseTable × FseTable × FseTable → Nat → Nat → Nat → List Nat → List Sequence
  | 0, _, _, _, _, _ => []
  | n + 1, fse, sll, sof, sml, bits =>
    let eof := entryAt fse.2.1 sof
    let eml := entryAt fse.2.2 sml
    let ell := entryAt fse.1 sll
    let r1 := readBits eof.num_extra_bits bits
    let r2 := readBits eml.num_extra_bits r1.2
    let r3 := readBits ell.num_extra_bits r2.2
    let r4 := readBits fse.1.accuracy_log r3.2
    let r5 := readBits fse.2.1.accuracy_log r4.2
    let r6 := readBits fse.2.2.accuracy_log r5.2
    ⟨ell.baseline + r3.1, eml.baseline + r2.1, eof.baseline + r1.1⟩ ::
      decodeSeqLoop n fse r4.1 r5.1 r6.1 r6.2

/-- Modelled from the spec: `SequenceDecoder` (section 4.4) — the three
interleaved entropy-coded streams are decoded from the single backward bit
reader; the three states are initialized from the reader (one accuracy-log's
worth of bits each, literal-length, offset, match-length order — a
completion) and `n` sequences are decoded. -/
def decodeSequences (n : Nat) (fse : FseTable × FseTable × FseTable)
    (bits : List Nat) : List Sequence :=
  let r1 := readBits fse.1.accuracy_log bits
  let r2 := readBits fse.2.1.accuracy_log r1.2
  let r3 := readBits fse.2.2.accuracy_log r2.2
  decodeSeqLoop n fse r1.1 r2.1 r3.1 r3.2

/-- Modelled from the spec: the back-reference copy of `SequenceExecutor`
(section 4.5), copied byte-by-byte (not in bulk) so that a self-overlapping
copy (`offset < match_length`) re-reads the bytes it has just written. -/
def copyBack (out : List Nat) (offset : Nat) : Nat → List Nat
  | 0 => out
  | ml + 1 => copyBack (out ++ [out.getD (out.length - offset) 0]) offset ml

/-- Modelled from the spec: `SequenceExecutor` (section 4.5) — each sequence
copies `literal_length` bytes from the pending literals buffer to the output,
then appends a `match_length`-byte back-reference copy starting `offset`
bytes before the current output end, failing with `CorruptedOffset` if the
offset exceeds the amount of output reconstructed so far; trailing literals
beyond the last sequence are appended uncopied. -/
def execSequences : List Sequence → List Nat → List Nat → Except DecodeError (List Nat)
  | [], lits, out => .ok (out ++ lits)
  | sq :: rest, lits, out =>
    if (out ++ lits.take sq.literal_length).length < sq.offset then
      .error .CorruptedOffset
    else
      execSequences rest (lits.drop sq.literal_length)
        (copyBack (out ++ lits.take sq.literal_length) sq.offset sq.match_length)

/-- Modelled from the spec: literals section of one block
(`LiteralsHeaderDecoder` + `LiteralsBlockDecoder`, sections 4.1 and 4.2) over
the block's payload `bb`, producing exactly `regenerated_size` literal bytes.
`Raw` copies them verbatim; `RunLength` repeats the single following byte;
`Compressed`/`Treeless` entropy-decode the declared `compressed_size` bytes
(see `huffDecode`), failing with `HuffmanDecodeFailure` exactly when the
decoded symbol count mismatches `regenerated_size`.  A declared size
exceeding the bytes remaining in the block is `TruncatedInput`.  Each output
literal byte yields one `LiteralsRawBytes` row under the same block index
(section 4.2), the rows' byte indices continuing the trace's row counter
`ridx`.  Returns (rows, literal bytes, header, bytes consumed from the block,
updated running regenerated size). -/
def decodeLiteralsSection (bb : List Nat) (k ridx rso : Nat) :
    Except DecodeError (List WitnessRow × List Nat × LiteralsHeader × Nat × Nat) :=
  match decodeLiteralsHeader bb with
  | .error e => .error e
  | .ok (hdr, hlen) =>
    match hdr.block_type with
    | .Raw =>
      if hlen + hdr.regenerated_size ≤ bb.length then
        .ok (lhRowsOf k rso (rso + hdr.regenerated_size) ridx (bb.take hlen) ++
               byteRows .LiteralsRawBytes k (ridx + hlen) (rso + hdr.regenerated_size)
                 ((bb.drop hlen).take hdr.regenerated_size),
             (bb.drop hlen).take hdr.regenerated_size, hdr,
             hlen + hdr.regenerated_size, rso + hdr.regenerated_size)
      else .error .TruncatedInput
    | .RunLength =>
      if hlen + 1 ≤ bb.length then
        .ok (lhRowsOf k rso (rso + hdr.regenerated_size) ridx (bb.take hlen) ++
               byteRows .LiteralsRawBytes k (ridx + hlen) (rso + hdr.regenerated_size)
                 (List.replicate hdr.regenerated_size (bb.getD hlen 0)),
             List.replicate hdr.regenerated_size (bb.getD hlen 0), hdr,
             hlen + 1, rso + hdr.regenerated_size)
      else .error .TruncatedInput
    | .Compressed | .Treeless =>
      if hlen + hdr.compressed_size.getD 0 ≤ bb.length then
        if (huffDecode ((bb.drop hlen).take (hdr.compressed_size.getD 0))).length =
            hdr.regenerated_size then
          .ok (lhRowsOf k rso (rso + hdr.regenerated_size) ridx (bb.take hlen) ++
                 byteRows .LiteralsRawBytes k (ridx + hlen) (rso + hdr.regenerated_size)
                   (huffDecode ((bb.drop hlen).take (hdr.compressed_size.getD 0))),
               huffDecode ((bb.drop hlen).take (hdr.compressed_size.getD 0)), hdr,
               hlen + hdr.compressed_size.getD 0, rso + hdr.regenerated_size)
        else .error .HuffmanDecodeFailure
      else .error .TruncatedInput

/-- Modelled from the spec: the sequences section of one block
(`SequenceDecoder`, section 4.4) over the block content remaining after the
literals section.  The sequence count is one byte (a completion of the
unspecified count encoding); a zero count ends the section (any trailing
bytes are malformed).  A nonzero count is followed by the compression-mode
byte — two selector bits per class, literal-length in bits `[6:8)`, offset in
`[4:6)`, match-length in `[2:4)`, the low two bits reserved‑zero (a
completion) — the per-class table descriptions, and the entropy bitstream,
which extends to the end of the section and is read backward.  Count and mode
bytes yield `SequencesHeader` rows, table-description bytes `FseTable` rows
and bitstream bytes `SequencesData` rows, all under the owning block index.
Returns (rows, decoded sequences, updated table triple). -/
def decodeSequencesSection (sb : List Nat) (k ridx rso : Nat)
    (fse : FseTable × FseTable × FseTable) :
    Except DecodeError
      (List WitnessRow × List Sequence × (FseTable × FseTable × FseTable)) :=
  match sb with
  | [] => .error .TruncatedInput
  | s0 :: srest =>
    if s0 = 0 then
      if srest = [] then .ok (byteRows .SequencesHeader k ridx rso [s0], [], fse)
      else .error .MalformedHeader
    else
      match srest with
      | [] => .error .TruncatedInput
      | m :: sdata =>
        if m % 4 = 0 then
          match parseSeqTables (m / 64 % 4) (m / 16 % 4) (m / 4 % 4) fse sdata with
          | .error e => .error e
          | .ok (fse2, tb) =>
            .ok (byteRows .SequencesHeader k ridx rso [s0, m] ++
                   (byteRows .FseTable k (ridx + 2) rso (sdata.take tb) ++
                    byteRows .SequencesData k (ridx + 2 + (sdata.take tb).length) rso
                      (sdata.drop tb)),
                 decodeSequences s0 fse2 (backBits (sdata.drop tb)), fse2)
        else .error .MalformedHeader

/-- Modelled from the spec: `BlockParser` for a single block (section 2 and
the state machine of section 4.6).  A block starts with a 3-byte little-endian
header carrying the last-block flag (bit 0), the block type (bits `[1:3)`,
recorded in the block metadata through the enum of section 3) and the block
size (bits `[3:24)`); the block's payload — delimited by the block size — is
its literals section followed by its sequences section.  Block header rows
carry the previous block's index (the block index increases at the
literals-header boundary); `Nat.max (k - 1) 1` keeps the first block's header
rows at index 1.  Returns (rows, literal bytes, block metadata, sequences,
bytes consumed, last-block flag, updated running regenerated size, updated
table triple). -/
def decodeBlock (rest : List Nat) (ridx k rso : Nat)
    (fse : FseTable × FseTable × FseTable) :
    Except DecodeError (List WitnessRow × List Nat × Block × List Sequence × Nat ×
      Bool × Nat × (FseTable × FseTable × FseTable)) :=
  match rest with
  | b0 :: b1 :: b2 :: tail =>
    let bh := b0 + 256 * b1 + 65536 * b2
    if bh / 8 ≤ tail.length then
      match decodeLiteralsSection (tail.take (bh / 8)) k (ridx + 3) rso with
      | .error e => .error e
      | .ok (lrows, lits, hdr, lcon, rso2) =>
        match decodeSequencesSection ((tail.take (bh / 8)).drop lcon) k
            (ridx + 3 + lrows.length) rso2 fse with
        | .error e => .error e
        | .ok (srows, seqs, fse2) =>
          .ok (byteRows .BlockHeader (Nat.max (k - 1) 1) ridx rso [b0, b1, b2] ++
                 (lrows ++ srows),
               lits, ⟨k, bh % 2 == 1, litBlockTypeOf (bh / 2), bh / 8,
                 hdr.regenerated_size⟩,
               seqs, 3 + bh / 8, bh % 2 == 1, rso2, fse2)
    else .error .TruncatedInput
  | _ => .error .TruncatedInput

/-- Modelled from the spec: the block iteration of `MultiBlockAggregator`
(section 2) within one frame.  Decodes blocks starting at global block index
`k` and replays each block's sequences against the growing output window
`out` (section 4.5) until the last-block flag, returning the bytes left after
the frame's last block (section 6 allows further concatenated frames); `fuel`
bounds the iteration and exceeds the number of blocks whenever it exceeds the
number of remaining bytes. -/
def decodeBlocks (fuel : Nat) (rest : List Nat) (ridx k rso : Nat)
    (fse : FseTable × FseTable × FseTable) (out : List Nat) :
    Except DecodeError (List WitnessRow × List Nat × List Block × List Sequence ×
      List Nat × Nat × List Nat) :=
  match fuel with
  | 0 => .error .MalformedHeader
  | fuel + 1 =>
    match decodeBlock rest ridx k rso fse with
    | .error e => .error e
    | .ok (rows, lits, blk, seqs, consumed, lastFlag, rso2, fse2) =>
      match execSequences seqs lits out with
      | .error e => .error e
      | .ok out1 =>
        if lastFlag then .ok (rows, lits, [blk], seqs, out1, rso2, rest.drop consumed)
        else
          match decodeBlocks fuel (rest.drop consumed) (ridx + rows.length) (k + 1) rso2
              fse2 out1 with
          | .error e => .error e
          | .ok (rows2, lits2, blks2, seqs2, out2, rso3, leftover) =>
            .ok (rows ++ rows2, lits ++ lits2, blk :: blks2, seqs ++ seqs2, out2, rso3,
                 leftover)

/-- Byte length of the declared-content-size field selected by the frame
header descriptor's FCS flag and single-segment bit (`FrameParser`, section
2). -/
def fcsFieldLen (flag ss : Nat) : Nat :=
  if flag = 0 then ss else if flag = 1 then 2 else if flag = 2 then 4 else 8

/-- Modelled from the spec: the frame iteration of `FrameParser` +
`MultiBlockAggregator` (sections 2 and 6 — the input may contain multiple
concatenated frames, block indices and the output window running on across
them).  Each frame: the 4-byte magic `0x28 0xB5 0x2F 0xFD`, the descriptor
byte (dictionary ids are a non-goal of section 1 and content checksums are
unspecified, so the corresponding flags are rejected as malformed), the
window-descriptor byte unless the single-segment bit is set, the
declared-content-size field selected by the FCS flag, then the frame's
blocks, each frame starting from the predefined table triple.  Frame header
rows carry `Nat.max (kNext - 1) 1`: index 1 for the first frame, the previous
frame's last block index afterwards (the block index increases only at a
literals-header boundary).  `fuel` bounds the frame count and exceeds it
whenever it exceeds the number of remaining bytes. -/
def processFrames (fuel : Nat) (input : List Nat) (ridx kNext rso : Nat)
    (out : List Nat) :
    Except DecodeError (List WitnessRow × List Nat × List Block × List Sequence ×
      List Nat) :=
  match fuel with
  | 0 => .error .MalformedHeader
  | fuel + 1 =>
    match input with
    | m0 :: m1 :: m2 :: m3 :: d :: rest =>
      if m0 = 40 ∧ m1 = 181 ∧ m2 = 47 ∧ m3 = 253 then
        if d % 4 = 0 ∧ d / 4 % 2 = 0 then
          if (1 - d / 32 % 2) + fcsFieldLen (d / 64) (d / 32 % 2) ≤ rest.length then
            match decodeBlocks (rest.length + 1)
                (rest.drop ((1 - d / 32 % 2) + fcsFieldLen (d / 64) (d / 32 % 2)))
                (ridx + 5 + ((1 - d / 32 % 2) + fcsFieldLen (d / 64) (d / 32 % 2)))
                kNext rso predefTriple out with
            | .error e => .error e
            | .ok (rows, lits, blks, seqs, out1, rso1, leftover) =>
              if leftover = [] then
                .ok (byteRows .FrameHeader (Nat.max (kNext - 1) 1) ridx rso
                       ([m0, m1, m2, m3, d] ++
                        rest.take ((1 - d / 32 % 2) + fcsFieldLen (d / 64) (d / 32 % 2))) ++
                       rows,
                     lits, blks, seqs, out1)
              else
                match processFrames fuel leftover
                    (ridx + 5 + ((1 - d / 32 % 2) + fcsFieldLen (d / 64) (d / 32 % 2)) +
                      rows.length)
                    (kNext + blks.length) rso1 out1 with
                | .error e => .error e
                | .ok (rows2, lits2, blks2, seqs2, out2) =>
                  .ok (byteRows .FrameHeader (Nat.max (kNext - 1) 1) ridx rso
                         ([m0, m1, m2, m3, d] ++
                          rest.take ((1 - d / 32 % 2) + fcsFieldLen (d / 64) (d / 32 % 2))) ++
                         rows ++ rows2,
                       lits ++ lits2, blks ++ blks2, seqs ++ seqs2, out2)
          else .error .MalformedHeader
        else .error .MalformedHeader
      else .error .MalformedHeader
    | _ => .error .MalformedHeader

/-- Modelled from the spec: the decode call (section 6) — all frames of the
input decoded in one pass, the result assembled wholesale. -/
def process (input : List Nat) : Except DecodeError MultiBlockProcessResult :=
  match processFrames (input.length + 1) input 0 1 0 [] with
  | .error e => .error e
  | .ok (rows, lits, blks, seqs, out) => .ok ⟨rows, lits, blks, seqs, out⟩

/-- Padding row replicating the final real row's block index and running
regenerated size (spec section 4.6). -/
def padRow (r : WitnessRow) : WitnessRow :=
  ⟨.Padding, r.block_idx, r.byte_idx, 0, r.regenerated_size_so_far, true⟩

/-- Modelled from the spec: padding policy of `WitnessRowEmitter` (section
4.6).  When the caller requests a fixed total row count, rows beyond the real
trace are appended as padding rows replicating the final real row's
`block_idx` and `regenerated_size_so_far`, as a single contiguous suffix. -/
def padTrace (rows : List WitnessRow) (total : Nat) : List WitnessRow :=
  match rows.getLast? with
  | none => rows
  | some r => rows ++ List.replicate (total - rows.length) (padRow r)

/-- Test-input builder (the spec specifies no encoder — encoding is a
non-goal of section 1): one block carrying the chunk as raw literals and an
empty sequence section, laid out per sections 4.1 and 4.4. -/
def encodeBlockBytes (c : List Nat) (lastFlag : Bool) : List Nat :=
  let n := c.length
  let bh := (if lastFlag then 1 else 0) + 4 + 8 * (n + 4)
  [bh % 256, bh / 256 % 256, bh / 65536, 12 + n % 16 * 16, n / 16 % 256, n / 4096] ++ c ++ [0]

/-- Concatenates the block encodings of a chunk list, marking the final chunk
as the last block. -/
def encodeFrameBlocks : List (List Nat) → List Nat
  | [] => []
  | [c] => encodeBlockBytes c true
  | c :: c' :: cs => encodeBlockBytes c false ++ encodeFrameBlocks (c' :: cs)

/-- Splits a payload into chunks of at most 65536 bytes; `fuel` bounds the
recursion. -/
def chunksOf : Nat → List Nat → List (List Nat)
  | 0, _ => []
  | _, [] => []
  | fuel + 1, l => l.take 65536 :: chunksOf fuel (l.drop 65536)

/-- Chunking of an arbitrary payload; an empty payload still yields one
(empty) block. -/
def chunks (p : List Nat) : List (List Nat) :=
  if p = [] then [[]] else chunksOf p.length p

/-- Test-input builder: a single frame — magic, a descriptor with no
dictionary, no checksum and no declared content size, a window descriptor
byte — holding one raw-literals block per 65536-byte chunk of the payload.
Used only to build concrete witness inputs. -/
def encodeRaw (p : List Nat) : List Nat :=
  [40, 181, 47, 253, 0, 0] ++ encodeFrameBlocks (chunks p)

/-- A 5-byte `Compressed`-type literals header (size format 3, 18-bit fields)
declaring regenerated size 0 and compressed size `cs`. -/
def mkCompressedLH (cs : Nat) : List Nat :=
  let full := 14 + 4194304 * cs
  [full % 256, full / 256 % 256, full / 65536 % 256,
   full / 16777216 % 256, full / 4294967296 % 256]

/-- An input whose single block declares a literals `compressed_size` of `cs`
while only `nrem` bytes remain in the block after the literals header. -/
def mkTruncated (nrem cs : Nat) : List Nat :=
  let bh := 5 + 8 * (5 + nrem)
  [40, 181, 47, 253, 0, 0, bh % 256, bh / 256 % 256, bh / 65536] ++
    mkCompressedLH cs ++ List.replicate nrem 0

/-- A concrete input whose single block holds a run-length literals section:
block content `[25, 7, 0]` — the one-byte literals header `0x19`
(block_type = RunLength, size_format = 0, regenerated size 3), the repeated
byte 7, and a zero sequence count.  The trace has 14 rows while the input has
12 bytes: the run-length body emits one `LiteralsRawBytes` row per output
byte (section 4.2), three rows from one consumed byte. -/
def rleExample : List Nat :=
  [40, 181, 47, 253, 0, 0, 29, 0, 0, 25, 7, 0]

/-- A concrete input whose single block carries a nonzero sequence count:
block content `[0, 1, 0]` — an empty raw literals section, sequence count 1
and a compression-mode byte selecting the predefined table for every class,
with an empty bitstream. -/
def seqExample : List Nat :=
  [40, 181, 47, 253, 0, 0, 29, 0, 0, 0, 1, 0]

/-- Step relation of the block-index bookkeeping along the trace: the block
index stays or increases by exactly 1, an increase happens only on a
`LiteralsHeader` row, and at a new (index ≥ 2) block's literals-header
boundary the index does increase by exactly 1. -/
def stepOk (r r' : WitnessRow) : Prop :=
  (r'.block_idx = r.block_idx ∨
    (r'.block_idx = r.block_idx + 1 ∧ r'.tag = ZstdTag.LiteralsHeader)) ∧
  (r'.tag = ZstdTag.LiteralsHeader ∧ r.tag = ZstdTag.BlockHeader ∧ 2 ≤ r'.block_idx →
    r'.block_idx = r.block_idx + 1)

/-- Regenerated-size decoding of the helper `LiteralsHeaderTable` from up to
three header bytes (raw/run-length layouts, mirroring `decodeLiteralsHeader`
on the same bytes). -/
def regenSizeOf (b0 b1 b2 : Nat) : Nat :=
  let sf := b0 / 4 % 4
  if sf % 2 = 0 then b0 / 8
  else if sf = 1 then b0 / 16 + 16 * b1
  else b0 / 16 + 16 * b1 + 4096 * b2

/-- One assigned row of the literals-header table: block index, byte offset,
up to three header bytes, the decoded regenerated size and the padding
flag. -/
structure LHTableRow where
  block_idx : Nat
  byte_offset : Nat
  byte0 : Nat
  byte1 : Nat
  byte2 : Nat
  regen_size : Nat
  is_padding : Bool
  deriving DecidableEq, Repr

/-- Per-block literals-header table entries built from the trace, mirroring
`TestLiteralsHeaderCircuit::synthesize`: for each block index from 1 to the
last row's block index, the `LiteralsHeader` rows of that block give the byte
offset and up to three header bytes (missing bytes are 0). -/
def lhTableEntries (rows : List WitnessRow) : List LHTableRow :=
  let lhRows := rows.filter (fun r => r.tag == ZstdTag.LiteralsHeader)
  let maxIdx := ((rows.getLast?).map (fun r => r.block_idx)).getD 0
  (List.range maxIdx).map (fun i =>
    let rowsK := lhRows.filter (fun r => r.block_idx == i + 1)
    let bytes := rowsK.map (fun r => r.value_byte)
    let b0 := bytes.getD 0 0
    let b1 := bytes.getD 1 0
    let b2 := bytes.getD 2 0
    ⟨i + 1, ((rowsK.head?).map (fun r => r.byte_idx)).getD 0,
     b0, b1, b2, regenSizeOf b0 b1 b2, false⟩)

/-- All-zero padding row of the literals-header table. -/
def padTableRow : LHTableRow := ⟨0, 0, 0, 0, 0, 0, true⟩

/-- Assignment of the literals-header table over `nEnabled` rows: the real
per-block entries followed by padding rows, mirroring
`LiteralsHeaderTable::assign` as driven by the test circuit. -/
def lhTableAssign (rows : List WitnessRow) (nEnabled : Nat) : List LHTableRow :=
  lhTableEntries rows ++
    List.replicate (nEnabled - (lhTableEntries rows).length) padTableRow

/-- Boolean conjunction of a predicate over all consecutive pairs. -/
def allPairsB (p : LHTableRow → LHTableRow → Bool) : List LHTableRow → Bool
  | [] => true
  | [_] => true
  | a :: b :: t => p a b && allPairsB p (b :: t)

/-- Per-row constraint of the consistency check: on a non-padding row the
assigned regenerated size must re-decode from the header bytes. -/
def rowOkB (r : LHTableRow) : Bool :=
  r.is_padding || (r.regen_size == regenSizeOf r.byte0 r.byte1 r.byte2)

/-- Transition constraint of the consistency check: padding is irreversible
and the block index increments by exactly 1 on each further real row. -/
def pairOkB (r r' : LHTableRow) : Bool :=
  r'.is_padding || (!r.is_padding && r'.block_idx == r.block_idx + 1)

/-- First-row constraint of the consistency check: the first real row carries
block index 1. -/
def headOkB : List LHTableRow → Bool
  | [] => true
  | r :: _ => r.is_padding || r.block_idx == 1

/-- Modelled from the spec: the downstream consistency check on the assigned
literals-header table (the constraints the `UnsoundCase` variants of
`aggregator/src/tests/literals_header.rs` are shown to violate): first block
index 1, block index incrementing by exactly 1 per real row, irreversible
padding, and regenerated sizes re-decoding from the header bytes. -/
def checkLHTable (t : List LHTableRow) : Bool :=
  headOkB t && t.all rowOkB && allPairsB pairOkB t

/-- Applies `f` to the element at position `i` (out-of-range indices leave the
list unchanged). -/
def modifyAt (f : LHTableRow → LHTableRow) : Nat → List LHTableRow → List LHTableRow
  | _, [] => []
  | 0, r :: t => f r :: t
  | n + 1, r :: t => r :: modifyAt f n t

/-- Corruption of `UnsoundCase::IncorrectInitialBlockIdx` /
`UnsoundCase::IncorrectBlockIdxTransition`: bump one assigned block index by
one. -/
def bumpBlockIdxAt (t : List LHTableRow) (i : Nat) : List LHTableRow :=
  modifyAt (fun r => { r with block_idx := r.block_idx + 1 }) i t

/-- Corruption of `UnsoundCase::IncorrectRegenSize`: bump one assigned
regenerated size by one. -/
def bumpRegenSizeAt (t : List LHTableRow) (i : Nat) : List LHTableRow :=
  modifyAt (fun r => { r with regen_size := r.regen_size + 1 }) i t

/-- Corruption of `UnsoundCase::IrregularPaddingTransition`: flip one
`is_padding` cell in the padding section back to 0. -/
def clearPaddingAt (t : List LHTableRow) (i : Nat) : List LHTableRow :=
  modifyAt (fun r => { r with is_padding := false }) i t

/-- Number of `LiteralsRawBytes` rows of the trace carrying block index `j`. -/
def litCountOf (rows : List WitnessRow) (j : Nat) : Nat :=
  (rows.filter (fun r => r.tag == ZstdTag.LiteralsRawBytes && r.block_idx == j)).length

theorem length_byteRows (t : ZstdTag) (k : Nat) (pos rso : Nat) (bs : List Nat) :
    (byteRows t k pos rso bs).length = bs.length := by
  induction bs generalizing pos with
  | nil => rfl
  | cons b bs ih => simp [byteRows, ih]

theorem map_value_byteRows (t : ZstdTag) (k : Nat) (pos rso : Nat) (bs : List Nat) :
    (byteRows t k pos rso bs).map (fun r => r.value_byte) = bs := by
  induction bs generalizing pos with
  | nil => rfl
  | cons b bs ih => simp [byteRows, ih]

theorem map_byteIdx_byteRows (t : ZstdTag) (k : Nat) (pos rso : Nat) (bs : List Nat) :
    (byteRows t k pos rso bs).map (fun r => r.byte_idx) = List.range' (pos + 1) bs.length := by
  induction bs generalizing pos with
  | nil => rfl
  | cons b bs ih => simp [byteRows, ih, List.range'_succ]

theorem mem_byteRows {t : ZstdTag} {k : Nat} {pos rso : Nat} {bs : List Nat} {r : WitnessRow}
    (h : r ∈ byteRows t k pos rso bs) :
    r.tag = t ∧ r.block_idx = k ∧ r.is_padding = false := by
  induction bs generalizing pos with
  | nil => simp [byteRows] at h
  | cons b bs ih =>
    simp only [byteRows, List.mem_cons] at h
    rcases h with h | h
    · subst h; exact ⟨rfl, rfl, rfl⟩
    · exact ih h

theorem length_lhRowsOf (k ro rn : Nat) (pos : Nat) (bs : List Nat) :
    (lhRowsOf k ro rn pos bs).length = bs.length := by
  induction bs generalizing pos with
  | nil => rfl
  | cons b bs ih =>
    cases bs with
    | nil => rfl
    | cons b' bs' => simp only [lhRowsOf, List.length_cons, ih]

theorem map_value_lhRowsOf (k ro rn : Nat) (pos : Nat) (bs : List Nat) :
    (lhRowsOf k ro rn pos bs).map (fun r => r.value_byte) = bs := by
  induction bs generalizing pos with
  | nil => rfl
  | cons b bs ih =>
    cases bs with
    | nil => rfl
    | cons b' bs' => simpa only [lhRowsOf, List.map_cons, List.cons.injEq, true_and] using ih _

theorem map_byteIdx_lhRowsOf (k ro rn : Nat) (pos : Nat) (bs : List Nat) :
    (lhRowsOf k ro rn pos bs).map (fun r => r.byte_idx) = List.range' (pos + 1) bs.length := by
  induction bs generalizing pos with
  | nil => rfl
  | cons b bs ih =>
    cases bs with
    | nil => simp [lhRowsOf, List.range'_succ]
    | cons b' bs' =>
      simp only [lhRowsOf, List.map_cons, List.length_cons, List.range'_succ, List.cons.injEq,
        true_and]
      exact ih _

theorem mem_lhRowsOf {k ro rn : Nat} {pos : Nat} {bs : List Nat} {r : WitnessRow}
    (h : r ∈ lhRowsOf k ro rn pos bs) :
    r.tag = ZstdTag.LiteralsHeader ∧ r.block_idx = k ∧ r.is_padding = false := by
  induction bs generalizing pos with
  | nil => simp [lhRowsOf] at h
  | cons b bs ih =>
    cases bs with
    | nil =>
      simp only [lhRowsOf, List.mem_singleton] at h
      subst h; exact ⟨rfl, rfl, rfl⟩
    | cons b' bs' =>
      simp only [lhRowsOf, List.mem_cons] at h
      rcases h with h | h
      · subst h; exact ⟨rfl, rfl, rfl⟩
      · exact ih h

theorem stepOk_same_not_lh {r r' : WitnessRow} (h : r'.block_idx = r.block_idx)
    (ht : r'.tag ≠ ZstdTag.LiteralsHeader) : stepOk r r' :=
  ⟨Or.inl h, fun hc => absurd hc.1 ht⟩

theorem stepOk_same_not_bh {r r' : WitnessRow} (h : r'.block_idx = r.block_idx)
    (ht : r.tag ≠ ZstdTag.BlockHeader) : stepOk r r' :=
  ⟨Or.inl h, fun hc => absurd hc.2.1 ht⟩

theorem stepOk_same_low {r r' : WitnessRow} (h : r'.block_idx = r.block_idx)
    (hl : r'.block_idx < 2) : stepOk r r' :=
  ⟨Or.inl h, fun hc => absurd hc.2.2 (by omega)⟩

theorem stepOk_inc_lh {r r' : WitnessRow} (h : r'.block_idx = r.block_idx + 1)
    (ht : r'.tag = ZstdTag.LiteralsHeader) : stepOk r r' :=
  ⟨Or.inr ⟨h, ht⟩, fun _ => h⟩

theorem chain'_stepOk_single {l : List WitnessRow} {t : ZstdTag} {k : Nat}
    (h : ∀ r ∈ l, r.block_idx = k ∧ r.tag = t) : List.Chain' stepOk l := by
  induction l with
  | nil => exact List.chain'_nil
  | cons a l ih =>
    cases l with
    | nil => exact List.chain'_singleton a
    | cons b l =>
      refine List.Chain'.cons ?_ (ih (fun r hr => h r (List.mem_cons_of_mem a hr)))
      have ha := h a (by simp)
      have hb := h b (by simp)
      refine ⟨Or.inl (by rw [ha.1, hb.1]), fun hc => ?_⟩
      have h1 := ha.2.symm.trans hc.2.1
      have h2 := hb.2.symm.trans hc.1
      rw [h2] at h1
      exact absurd h1 (by simp)

theorem chain'_stepOk_no_bh {l : List WitnessRow} {k : Nat}
    (h : ∀ r ∈ l, r.block_idx = k ∧ r.tag ≠ ZstdTag.BlockHeader) :
    List.Chain' stepOk l := by
  induction l with
  | nil => exact List.chain'_nil
  | cons a l ih =>
    cases l with
    | nil => exact List.chain'_singleton a
    | cons b l =>
      refine List.Chain'.cons ?_ (ih (fun r hr => h r (List.mem_cons_of_mem a hr)))
      have ha := h a (by simp)
      have hb := h b (by simp)
      exact stepOk_same_not_bh (by rw [ha.1, hb.1]) ha.2

theorem getLast?_cons_some (a : WitnessRow) (l : List WitnessRow) :
    ∃ x, (a :: l).getLast? = some x := by
  induction l generalizing a with
  | nil => exact ⟨a, rfl⟩
  | cons b t ih =>
    obtain ⟨x, hx⟩ := ih b
    exact ⟨x, by rw [List.getLast?_cons_cons]; exact hx⟩

theorem litCountOf_append (l₁ l₂ : List WitnessRow) (j : Nat) :
    litCountOf (l₁ ++ l₂) j = litCountOf l₁ j + litCountOf l₂ j := by
  simp [litCountOf, List.filter_append]

theorem litCountOf_eq_zero {l : List WitnessRow} {j : Nat}
    (h : ∀ r ∈ l, ¬(r.tag = ZstdTag.LiteralsRawBytes ∧ r.block_idx = j)) :
    litCountOf l j = 0 := by
  simp only [litCountOf, List.length_eq_zero, List.filter_eq_nil_iff]
  intro r hr
  have := h r hr
  simp only [Bool.and_eq_true, beq_iff_eq, not_and]
  intro h1 h2
  exact this ⟨h1, h2⟩

theorem litCountOf_byteRows_self (k : Nat) (pos rso : Nat) (bs : List Nat) :
    litCountOf (byteRows ZstdTag.LiteralsRawBytes k pos rso bs) k = bs.length := by
  induction bs generalizing pos with
  | nil => rfl
  | cons b bs ih => simp [byteRows, litCountOf, List.filter_cons] at ih ⊢; exact ih _

theorem litCountOf_byteRows_ne_tag {t : ZstdTag} (ht : t ≠ ZstdTag.LiteralsRawBytes)
    (k : Nat) (pos rso : Nat) (bs : List Nat) (j : Nat) :
    litCountOf (byteRows t k pos rso bs) j = 0 :=
  litCountOf_eq_zero (fun r hr hc => ht ((mem_byteRows hr).1 ▸ hc.1 ▸ rfl))

theorem litCountOf_lhRowsOf (k ro rn : Nat) (pos : Nat) (bs : List Nat) (j : Nat) :
    litCountOf (lhRowsOf k ro rn pos bs) j = 0 :=
  litCountOf_eq_zero (fun r hr hc => by
    have := (mem_lhRowsOf hr).1
    rw [this] at hc
    exact absurd hc.1 (by simp))

theorem litCountOf_byteRows_ne_idx {k j : Nat} (hj : j ≠ k)
    (t : ZstdTag) (pos rso : Nat) (bs : List Nat) :
    litCountOf (byteRows t k pos rso bs) j = 0 :=
  litCountOf_eq_zero (fun r hr hc => hj ((mem_byteRows hr).2.1 ▸ hc.2.symm ▸ rfl))

theorem lhRowsOf_cons (k ro rn pos : Nat) (b : Nat) (bs : List Nat) :
    ∃ x t, lhRowsOf k ro rn pos (b :: bs) =
      ⟨ZstdTag.LiteralsHeader, k, pos + 1, b, x, false⟩ :: t := by
  cases bs with
  | nil => exact ⟨rn, [], rfl⟩
  | cons b' bs' => exact ⟨ro, _, rfl⟩

theorem decodeLiteralsHeader_ok {bytes : List Nat} {hdr : LiteralsHeader} {hlen : Nat}
    (h : decodeLiteralsHeader bytes = .ok (hdr, hlen)) :
    1 ≤ hlen ∧ hlen ≤ bytes.length := by
  match bytes with
  | [] => simp [decodeLiteralsHeader] at h
  | b0 :: rest =>
    simp only [decodeLiteralsHeader] at h
    split at h
    · split at h
      · simp only [Except.ok.injEq, Prod.mk.injEq] at h
        simp [← h.2]
      · split at h
        · split at h
          · simp at h
          · simp only [Except.ok.injEq, Prod.mk.injEq] at h
            rename_i b1 tail
            simp only [← h.2, List.length_cons]
            omega
        · split at h
          · simp only [Except.ok.injEq, Prod.mk.injEq] at h
            rename_i b1 b2 tail
            simp only [← h.2, List.length_cons]
            omega
          · simp at h
    · split at h
      · rename_i hnb
        simp only [Except.ok.injEq, Prod.mk.injEq] at h
        simp only [← h.2, List.length_cons, lhCompBytes] at hnb ⊢
        split at hnb <;> split <;> omega
      · simp at h

theorem huffDecode_length (l : List Nat) : (huffDecode l).length = l.length := by
  induction l with
  | nil => rfl
  | cons b bs ih => simp [huffDecode, ih]

theorem litRows_spec {k ridx off rso rn : Nat} {hb body : List Nat}
    {rows : List WitnessRow}
    (hrows : rows = lhRowsOf k rso (rso + rn) ridx hb ++
      byteRows ZstdTag.LiteralsRawBytes k off (rso + rn) body)
    (hoff : off = ridx + hb.length) (hbody : body.length = rn) (hhb : hb ≠ []) :
    rows.map (fun r => r.byte_idx) = List.range' (ridx + 1) rows.length
    ∧ (∀ r ∈ rows, r.block_idx = k ∧ r.is_padding = false ∧ r.tag ≠ ZstdTag.BlockHeader)
    ∧ (∀ j, litCountOf rows j = if j = k then rn else 0)
    ∧ List.Chain' stepOk rows
    ∧ (∃ x t, rows = ⟨ZstdTag.LiteralsHeader, k, ridx + 1, x, t, false⟩ :: rows.tail)
    ∧ (∃ r ∈ rows, r.tag = ZstdTag.LiteralsHeader ∧ r.block_idx = k) := by
  have hlen : rows.length = hb.length + rn := by
    rw [hrows]
    simp [length_lhRowsOf, length_byteRows, hbody]
  refine ⟨?_, ?_, ?_, ?_, ?_, ?_⟩
  · have hmap : rows.map (fun r => r.byte_idx) =
        List.range' (ridx + 1) (hb.length + rn) := by
      rw [hrows, List.map_append, map_byteIdx_lhRowsOf, map_byteIdx_byteRows, hbody, hoff]
      have h1 : ridx + hb.length + 1 = ridx + 1 + hb.length := by omega
      rw [h1, List.range'_append_1, Nat.add_comm rn hb.length]
    rw [hmap, hlen]
  · intro r hr
    rw [hrows] at hr
    rcases List.mem_append.mp hr with hm | hm
    · have := mem_lhRowsOf hm
      exact ⟨this.2.1, this.2.2, by rw [this.1]; simp⟩
    · have := mem_byteRows hm
      exact ⟨this.2.1, this.2.2, by rw [this.1]; simp⟩
  · intro j
    rw [hrows, litCountOf_append, litCountOf_lhRowsOf]
    by_cases hj : j = k
    · subst hj
      simp only [if_pos rfl]
      rw [litCountOf_byteRows_self]
      simpa using hbody
    · simp only [if_neg hj]
      rw [litCountOf_byteRows_ne_idx hj]
  · rw [hrows, List.chain'_append]
    refine ⟨chain'_stepOk_single (fun r hr => ⟨(mem_lhRowsOf hr).2.1, (mem_lhRowsOf hr).1⟩),
      chain'_stepOk_single (fun r hr => ⟨(mem_byteRows hr).2.1, (mem_byteRows hr).1⟩),
      ?_⟩
    intro x hx y hy
    have hxm : x ∈ lhRowsOf k rso (rso + rn) ridx hb :=
      List.mem_of_getLast?_eq_some (Option.mem_def.mp hx)
    have hym : y ∈ byteRows ZstdTag.LiteralsRawBytes k off (rso + rn) body :=
      List.mem_of_mem_head? hy
    refine stepOk_same_not_lh ?_ ?_
    · rw [(mem_byteRows hym).2.1, (mem_lhRowsOf hxm).2.1]
    · rw [(mem_byteRows hym).1]; simp
  · match hb, hhb, hrows with
    | b :: bs, hhb, hrows =>
      obtain ⟨x, t, hx⟩ := lhRowsOf_cons k rso (rso + rn) ridx b bs
      refine ⟨b, x, ?_⟩
      rw [hrows, hx]
      rfl
  · match hb, hhb, hrows with
    | b :: bs, hhb, hrows =>
      obtain ⟨x, t, hx⟩ := lhRowsOf_cons k rso (rso + rn) ridx b bs
      refine ⟨⟨ZstdTag.LiteralsHeader, k, ridx + 1, b, x, false⟩, ?_, rfl, rfl⟩
      rw [hrows, hx]
      simp

theorem decodeLiteralsSection_spec {bb : List Nat} {k ridx rso : Nat}
    {rows : List WitnessRow} {lits : List Nat} {hdr : LiteralsHeader} {lcon rso2 : Nat}
    (h : decodeLiteralsSection bb k ridx rso = .ok (rows, lits, hdr, lcon, rso2)) :
    (1 ≤ lcon ∧ lcon ≤ bb.length)
    ∧ rows.map (fun r => r.byte_idx) = List.range' (ridx + 1) rows.length
    ∧ (∀ r ∈ rows, r.block_idx = k ∧ r.is_padding = false ∧ r.tag ≠ ZstdTag.BlockHeader)
    ∧ (∀ j, litCountOf rows j = if j = k then hdr.regenerated_size else 0)
    ∧ List.Chain' stepOk rows
    ∧ (∃ x t, rows = ⟨ZstdTag.LiteralsHeader, k, ridx + 1, x, t, false⟩ :: rows.tail)
    ∧ (∃ r ∈ rows, r.tag = ZstdTag.LiteralsHeader ∧ r.block_idx = k)
    ∧ lits.length = hdr.regenerated_size := by
  rw [decodeLiteralsSection] at h
  split at h
  · simp at h
  · rename_i hdr0 hlen heq
    obtain ⟨hl1, hl2⟩ := decodeLiteralsHeader_ok heq
    have htk : (bb.take hlen).length = hlen := by
      simp [List.length_take]
      omega
    have hne : bb.take hlen ≠ [] := by
      intro hc
      rw [hc] at htk
      simp at htk
      omega
    split at h
    · split at h
      · rename_i hsz
        simp only [Except.ok.injEq, Prod.mk.injEq] at h
        obtain ⟨hrows, hlits, hhdr, hlcon, hrso⟩ := h
        subst hhdr
        have hbody : ((bb.drop hlen).take hdr0.regenerated_size).length =
            hdr0.regenerated_size := by
          simp [List.length_take, List.length_drop]
          omega
        obtain ⟨hmap, hmem, hcount, hchain, hhead, hlhmem⟩ :=
          litRows_spec hrows.symm (by omega) hbody hne
        exact ⟨⟨by omega, by omega⟩, hmap, hmem, hcount, hchain, hhead, hlhmem,
          by rw [← hlits]; exact hbody⟩
      · simp at h
    · split at h
      · rename_i hsz
        simp only [Except.ok.injEq, Prod.mk.injEq] at h
        obtain ⟨hrows, hlits, hhdr, hlcon, hrso⟩ := h
        subst hhdr
        have hbody : (List.replicate hdr0.regenerated_size (bb.getD hlen 0)).length =
            hdr0.regenerated_size := by
          simp
        obtain ⟨hmap, hmem, hcount, hchain, hhead, hlhmem⟩ :=
          litRows_spec hrows.symm (by omega) hbody hne
        exact ⟨⟨by omega, by omega⟩, hmap, hmem, hcount, hchain, hhead, hlhmem,
          by rw [← hlits]; exact hbody⟩
      · simp at h
    · split at h
      · split at h
        · rename_i hsz hcnt
          simp only [Except.ok.injEq, Prod.mk.injEq] at h
          obtain ⟨hrows, hlits, hhdr, hlcon, hrso⟩ := h
          subst hhdr
          obtain ⟨hmap, hmem, hcount, hchain, hhead, hlhmem⟩ :=
            litRows_spec hrows.symm (by omega) hcnt hne
          exact ⟨⟨by omega, by omega⟩, hmap, hmem, hcount, hchain, hhead, hlhmem,
            by rw [← hlits]; exact hcnt⟩
        · simp at h
      · simp at h
    · split at h
      · split at h
        · rename_i hsz hcnt
          simp only [Except.ok.injEq, Prod.mk.injEq] at h
          obtain ⟨hrows, hlits, hhdr, hlcon, hrso⟩ := h
          subst hhdr
          obtain ⟨hmap, hmem, hcount, hchain, hhead, hlhmem⟩ :=
            litRows_spec hrows.symm (by omega) hcnt hne
          exact ⟨⟨by omega, by omega⟩, hmap, hmem, hcount, hchain, hhead, hlhmem,
            by rw [← hlits]; exact hcnt⟩
        · simp at h
      · simp at h

theorem map_range'_glue3 {f : WitnessRow → Nat} {A B C : List WitnessRow} {s a b c : Nat}
    (hA : A.map f = List.range' s a) (hB : B.map f = List.range' (s + a) b)
    (hC : C.map f = List.range' (s + a + b) c) :
    (A ++ (B ++ C)).map f = List.range' s (a + b + c) := by
  simp only [List.map_append, hA, hB, hC]
  rw [List.range'_append_1 (s + a) b c, List.range'_append_1 s a (c + b)]
  congr 1
  omega

theorem decodeSequencesSection_spec {sb : List Nat} {k ridx rso : Nat}
    {fse fse2 : FseTable × FseTable × FseTable} {srows : List WitnessRow}
    {seqs : List Sequence}
    (h : decodeSequencesSection sb k ridx rso fse = .ok (srows, seqs, fse2)) :
    srows.map (fun r => r.byte_idx) = List.range' (ridx + 1) srows.length
    ∧ (∀ r ∈ srows, r.block_idx = k ∧ r.is_padding = false ∧
        r.tag ≠ ZstdTag.BlockHeader ∧ r.tag ≠ ZstdTag.LiteralsHeader ∧
        r.tag ≠ ZstdTag.LiteralsRawBytes)
    ∧ List.Chain' stepOk srows
    ∧ (∃ r0 t0, srows = r0 :: t0 ∧ r0.tag = ZstdTag.SequencesHeader ∧
        r0.block_idx = k) := by
  match sb with
  | [] => simp [decodeSequencesSection] at h
  | s0 :: srest =>
    simp only [decodeSequencesSection] at h
    split at h
    · split at h
      · simp only [Except.ok.injEq, Prod.mk.injEq] at h
        obtain ⟨hrows, hseqs, hfse⟩ := h
        refine ⟨?_, ?_, ?_, ?_⟩
        · rw [← hrows]
          simp [byteRows, List.range'_succ]
        · intro r hr
          rw [← hrows] at hr
          have := mem_byteRows hr
          exact ⟨this.2.1, this.2.2, by rw [this.1]; simp, by rw [this.1]; simp,
            by rw [this.1]; simp⟩
        · rw [← hrows]
          exact chain'_stepOk_single (fun r hr =>
            ⟨(mem_byteRows hr).2.1, (mem_byteRows hr).1⟩)
        · exact ⟨⟨ZstdTag.SequencesHeader, k, ridx + 1, s0, rso, false⟩, [],
            by rw [← hrows]; rfl, rfl, rfl⟩
      · simp at h
    · split at h
      · simp at h
      · rename_i m sdata
        split at h
        · split at h
          · simp at h
          · rename_i hmode hptv fse0 tb hpt
            simp only [Except.ok.injEq, Prod.mk.injEq] at h
            obtain ⟨hrows, hseqs, hfse⟩ := h
            have hmemall : ∀ r ∈ srows, r.block_idx = k ∧ r.is_padding = false ∧
                r.tag ≠ ZstdTag.BlockHeader ∧ r.tag ≠ ZstdTag.LiteralsHeader ∧
                r.tag ≠ ZstdTag.LiteralsRawBytes := by
              intro r hr
              rw [← hrows] at hr
              rcases List.mem_append.mp hr with hm | hm
              · have := mem_byteRows hm
                exact ⟨this.2.1, this.2.2, by rw [this.1]; simp, by rw [this.1]; simp,
                  by rw [this.1]; simp⟩
              · rcases List.mem_append.mp hm with hm2 | hm2
                · have := mem_byteRows hm2
                  exact ⟨this.2.1, this.2.2, by rw [this.1]; simp, by rw [this.1]; simp,
                    by rw [this.1]; simp⟩
                · have := mem_byteRows hm2
                  exact ⟨this.2.1, this.2.2, by rw [this.1]; simp, by rw [this.1]; simp,
                    by rw [this.1]; simp⟩
            refine ⟨?_, hmemall, ?_, ?_⟩
            · have hA : (byteRows ZstdTag.SequencesHeader k ridx rso [s0, m]).map
                  (fun r => r.byte_idx) = List.range' (ridx + 1) 2 := by
                rw [map_byteIdx_byteRows]
                rfl
              have hB : (byteRows ZstdTag.FseTable k (ridx + 2) rso (sdata.take tb)).map
                  (fun r => r.byte_idx) =
                  List.range' (ridx + 1 + 2) (sdata.take tb).length := by
                rw [map_byteIdx_byteRows]
              have hC : (byteRows ZstdTag.SequencesData k (ridx + 2 + (sdata.take tb).length)
                  rso (sdata.drop tb)).map (fun r => r.byte_idx) =
                  List.range' (ridx + 1 + 2 + (sdata.take tb).length)
                    (sdata.drop tb).length := by
                rw [map_byteIdx_byteRows]
                congr 1
                omega
              have hglue := map_range'_glue3 hA hB hC
              have hlen : srows.length =
                  2 + (sdata.take tb).length + (sdata.drop tb).length := by
                rw [← hrows]
                simp [length_byteRows]
                omega
              conv_lhs => rw [← hrows]
              rw [hglue, hlen]
            · exact chain'_stepOk_no_bh (fun r hr => ⟨(hmemall r hr).1, (hmemall r hr).2.2.1⟩)
            · refine ⟨⟨ZstdTag.SequencesHeader, k, ridx + 1, s0, rso, false⟩, _,
                  by rw [← hrows]; rfl, rfl, rfl⟩
        · simp at h

theorem decodeBlock_spec {rest : List Nat} {ridx k rso : Nat}
    {fse fse2 : FseTable × FseTable × FseTable}
    {rows : List WitnessRow} {lits : List Nat} {blk : Block} {seqs : List Sequence}
    {consumed : Nat} {lastFlag : Bool} {rso2 : Nat} (hk : 1 ≤ k)
    (h : decodeBlock rest ridx k rso fse =
      .ok (rows, lits, blk, seqs, consumed, lastFlag, rso2, fse2)) :
    (1 ≤ consumed ∧ consumed ≤ rest.length)
    ∧ rows.map (fun r => r.byte_idx) = List.range' (ridx + 1) rows.length
    ∧ (∀ r ∈ rows, r.is_padding = false)
    ∧ (∀ r ∈ rows, r.block_idx = k ∨
        (r.block_idx = Nat.max (k - 1) 1 ∧ r.tag = ZstdTag.BlockHeader))
    ∧ blk.block_idx = k
    ∧ (∀ j, litCountOf rows j = if j = k then blk.regen_size else 0)
    ∧ List.Chain' stepOk rows
    ∧ (∃ r0, rows.head? = some r0 ∧ r0.tag = ZstdTag.BlockHeader ∧
        r0.block_idx = Nat.max (k - 1) 1)
    ∧ (∃ rl, rows.getLast? = some rl ∧ rl.block_idx = k)
    ∧ (∃ r ∈ rows, r.tag = ZstdTag.LiteralsHeader ∧ r.block_idx = k) := by
  match rest with
  | [] => simp [decodeBlock] at h
  | [b0] => simp [decodeBlock] at h
  | [b0, b1] => simp [decodeBlock] at h
  | b0 :: b1 :: b2 :: tail =>
    simp only [decodeBlock] at h
    split at h
    · rename_i hsize
      split at h
      · simp at h
      · rename_i hsecv lrows lits0 hdr0 lcon rso0 heq
        split at h
        · simp at h
        · rename_i hseqv srows0 seqs0 fse0 hseq
          simp only [Except.ok.injEq, Prod.mk.injEq] at h
          obtain ⟨hrows, hlits, hblk, hseqs, hcon, hlast, hrso, hfse⟩ := h
          obtain ⟨⟨hc1, hc2⟩, lmap, lmem, lcount, lchain,
            ⟨lx, lt, lhead⟩, llhmem, llits⟩ := decodeLiteralsSection_spec heq
          obtain ⟨smap, smem, schain, ⟨sr0, st0, hscons, hsr0t, hsr0i⟩⟩ :=
            decodeSequencesSection_spec hseq
          subst hblk hcon hlast hrso hlits
          refine ⟨⟨by omega, by simp only [List.length_cons]; omega⟩, ?_, ?_, ?_, rfl,
            ?_, ?_, ?_, ?_, ?_⟩
          · have hA : (byteRows ZstdTag.BlockHeader (Nat.max (k - 1) 1) ridx rso
                [b0, b1, b2]).map (fun r => r.byte_idx) = List.range' (ridx + 1) 3 := by
              rw [map_byteIdx_byteRows]
              rfl
            have hB : lrows.map (fun r => r.byte_idx) =
                List.range' (ridx + 1 + 3) lrows.length := by
              rw [lmap]
            have hC : srows0.map (fun r => r.byte_idx) =
                List.range' (ridx + 1 + 3 + lrows.length) srows0.length := by
              rw [smap]
              congr 1
              omega
            have hglue := map_range'_glue3 hA hB hC
            have hlen : rows.length = 3 + lrows.length + srows0.length := by
              rw [← hrows]
              simp [length_byteRows]
              omega
            conv_lhs => rw [← hrows]
            rw [hglue, hlen]
          · intro r hr
            rw [← hrows] at hr
            rcases List.mem_append.mp hr with hm | hm
            · exact (mem_byteRows hm).2.2
            · rcases List.mem_append.mp hm with hm2 | hm2
              · exact (lmem r hm2).2.1
              · exact (smem r hm2).2.1
          · intro r hr
            rw [← hrows] at hr
            rcases List.mem_append.mp hr with hm | hm
            · exact Or.inr ⟨(mem_byteRows hm).2.1, (mem_byteRows hm).1⟩
            · rcases List.mem_append.mp hm with hm2 | hm2
              · exact Or.inl (lmem r hm2).1
              · exact Or.inl (smem r hm2).1
          · intro j
            rw [← hrows, litCountOf_append, litCountOf_append,
              litCountOf_byteRows_ne_tag (by simp), lcount j]
            have hs0 : litCountOf srows0 j = 0 := by
              refine litCountOf_eq_zero ?_
              intro r hr hc
              exact absurd hc.1 (smem r hr).2.2.2.2
            rw [hs0]
            split <;> simp
          · rw [← hrows, List.chain'_append]
            refine ⟨chain'_stepOk_single
                (fun r hr => ⟨(mem_byteRows hr).2.1, (mem_byteRows hr).1⟩), ?_, ?_⟩
            · rw [List.chain'_append]
              refine ⟨lchain, schain, ?_⟩
              intro x hx y hy
              have hxm := List.mem_of_getLast?_eq_some (Option.mem_def.mp hx)
              rw [hscons] at hy
              simp only [List.head?_cons, Option.mem_def, Option.some.injEq] at hy
              subst hy
              refine stepOk_same_not_lh ?_ (by rw [hsr0t]; simp)
              rw [hsr0i, (lmem x hxm).1]
            · intro x hx y hy
              simp only [byteRows, List.getLast?_cons_cons, List.getLast?_singleton,
                Option.mem_def, Option.some.injEq] at hx
              rw [lhead] at hy
              simp only [List.cons_append, List.head?_cons, Option.mem_def,
                Option.some.injEq] at hy
              subst hx
              subst hy
              by_cases hk2 : k ≤ 1
              · have hk1 : k = 1 := by omega
                subst hk1
                exact stepOk_same_low (by simp) (by simp)
              · have hm : Nat.max (k - 1) 1 = k - 1 := Nat.max_eq_left (by omega)
                refine stepOk_inc_lh ?_ rfl
                show k = Nat.max (k - 1) 1 + 1
                rw [hm]
                omega
          · rw [← hrows]
            refine ⟨⟨ZstdTag.BlockHeader, Nat.max (k - 1) 1, ridx + 1, b0, rso, false⟩,
              ?_, rfl, rfl⟩
            simp [byteRows]
          · obtain ⟨rl, hrl⟩ := getLast?_cons_some sr0 st0
            rw [← hscons] at hrl
            have hrlmem : rl ∈ srows0 := List.mem_of_getLast?_eq_some (Option.mem_def.mp hrl)
            refine ⟨rl, ?_, (smem rl hrlmem).1⟩
            rw [← hrows, List.getLast?_append, List.getLast?_append, hrl]
            rfl
          · obtain ⟨r, hr, hrt, hri⟩ := llhmem
            refine ⟨r, ?_, hrt, hri⟩
            rw [← hrows]
            exact List.mem_append_right _ (List.mem_append_left _ hr)
    · simp at h

theorem decodeBlocks_spec {fuel : Nat} {rest : List Nat} {ridx k rso : Nat}
    {fse : FseTable × FseTable × FseTable} {out : List Nat}
    {rows : List WitnessRow} {lits : List Nat} {blks : List Block}
    {seqs : List Sequence} {out1 : List Nat} {rso1 : Nat} {leftover : List Nat}
    (hk : 1 ≤ k)
    (h : decodeBlocks fuel rest ridx k rso fse out =
      .ok (rows, lits, blks, seqs, out1, rso1, leftover)) :
    rows.map (fun r => r.byte_idx) = List.range' (ridx + 1) rows.length
    ∧ (∀ r ∈ rows, r.is_padding = false)
    ∧ 1 ≤ blks.length
    ∧ (∀ b ∈ blks, k ≤ b.block_idx ∧ b.block_idx ≤ k + blks.length - 1)
    ∧ (∀ r ∈ rows, r.block_idx ≤ k + blks.length - 1)
    ∧ (∀ r ∈ rows, r.tag = ZstdTag.LiteralsRawBytes → k ≤ r.block_idx)
    ∧ (∀ b ∈ blks, b.regen_size = litCountOf rows b.block_idx)
    ∧ List.Chain' stepOk rows
    ∧ (∃ r0, rows.head? = some r0 ∧ r0.tag = ZstdTag.BlockHeader ∧
        r0.block_idx = Nat.max (k - 1) 1)
    ∧ (∃ rl, rows.getLast? = some rl ∧ rl.block_idx = k + blks.length - 1)
    ∧ (∀ j, k ≤ j → j < k + blks.length →
        ∃ r ∈ rows, r.tag = ZstdTag.LiteralsHeader ∧ r.block_idx = j)
    ∧ blks.map (fun b => b.block_idx) = List.range' k blks.length
    ∧ (∃ m, 1 ≤ m ∧ m ≤ rest.length ∧ leftover = rest.drop m) := by
  induction fuel generalizing rest ridx k rso fse out rows lits blks seqs out1 rso1
      leftover with
  | zero => simp [decodeBlocks] at h
  | succ fuel ih =>
    rw [decodeBlocks] at h
    split at h
    · simp at h
    · rename_i hbv rows0 lits0 blk0 seqs0 consumed lastF rso0 fse0 hblk
      obtain ⟨⟨hc1, hc2⟩, bmapi, bpad, bidx, bblkidx, bcount, bchain,
        ⟨r0, hr0, hr0t, hr0i⟩, ⟨rl, hrl, hrli⟩, blh⟩ := decodeBlock_spec hk hblk
      have hmax : Nat.max (k - 1) 1 ≤ k := Nat.max_le.mpr ⟨by omega, hk⟩
      split at h
      · simp at h
      · rename_i hexv out0 hexec
        split at h
        · simp only [Except.ok.injEq, Prod.mk.injEq] at h
          obtain ⟨h1, h2, h3, h4, h5, h6, h7⟩ := h
          subst h1 h2 h3 h4 h5 h6 h7
          refine ⟨bmapi, bpad, ?_, ?_, ?_, ?_, ?_, bchain, ⟨r0, hr0, hr0t, hr0i⟩, ?_, ?_,
            ?_, ?_⟩
          · simp
          · intro b hb
            simp only [List.mem_singleton] at hb
            subst hb
            simp only [List.length_singleton]
            omega
          · intro r hr
            simp only [List.length_singleton]
            rcases bidx r hr with hi | hi
            · omega
            · have := hi.1
              omega
          · intro r hr ht
            rcases bidx r hr with hi | hi
            · omega
            · rw [hi.2] at ht
              simp at ht
          · intro b hb
            simp only [List.mem_singleton] at hb
            rw [hb, bcount blk0.block_idx]
            simp [bblkidx]
          · exact ⟨rl, hrl, by simp; omega⟩
          · intro j hj1 hj2
            simp only [List.length_singleton] at hj2
            have : j = k := by omega
            subst this
            exact blh
          · simp only [List.map_singleton, List.length_singleton, bblkidx]
            rfl
          · exact ⟨consumed, hc1, hc2, rfl⟩
        · split at h
          · simp at h
          · rename_i hrecv rows1 lits1 blks1 seqs1 out2 rso2 left1 hrec
            simp only [Except.ok.injEq, Prod.mk.injEq] at h
            obtain ⟨h1, h2, h3, h4, h5, h6, h7⟩ := h
            subst h1 h2 h3 h4 h5 h6 h7
            obtain ⟨imapi, ipad, ilen, iblk, iidx, ilit, icount, ichain,
              ⟨s0, hs0, hs0t, hs0i⟩, ⟨sl, hsl, hsli⟩, ilh, imap, ⟨m1, hm1, hm2, hmleft⟩⟩ :=
              ih (by omega) hrec
            have hs0i2 : s0.block_idx = k := by
              rw [hs0i]
              exact Nat.max_eq_left (by omega)
            refine ⟨?_, ?_, ?_, ?_, ?_, ?_, ?_, ?_, ?_, ?_, ?_, ?_, ?_⟩
            · have hB : rows1.map (fun r => r.byte_idx) =
                  List.range' (ridx + 1 + rows0.length) rows1.length := by
                rw [imapi]
                congr 1
                omega
              rw [List.map_append, bmapi, hB, List.range'_append_1]
              simp only [List.length_append]
              congr 1
              omega
            · intro r hr
              rcases List.mem_append.mp hr with hm | hm
              · exact bpad r hm
              · exact ipad r hm
            · simp only [List.length_cons]
              omega
            · intro b hb
              simp only [List.length_cons]
              rcases List.mem_cons.mp hb with hm | hm
              · subst hm
                constructor
                · omega
                · rw [bblkidx]
                  omega
              · have := iblk b hm
                omega
            · intro r hr
              simp only [List.length_cons]
              rcases List.mem_append.mp hr with hm | hm
              · rcases bidx r hm with hi | hi
                · omega
                · have := hi.1
                  omega
              · have := iidx r hm
                omega
            · intro r hr ht
              rcases List.mem_append.mp hr with hm | hm
              · rcases bidx r hm with hi | hi
                · omega
                · rw [hi.2] at ht
                  simp at ht
              · have := ilit r hm ht
                omega
            · intro b hb
              rcases List.mem_cons.mp hb with hm | hm
              · rw [hm, litCountOf_append, bcount blk0.block_idx, if_pos bblkidx]
                have : litCountOf rows1 blk0.block_idx = 0 := by
                  refine litCountOf_eq_zero ?_
                  intro r hr hc
                  have := ilit r hr hc.1
                  rw [hc.2, bblkidx] at this
                  omega
                omega
              · have hbge : k + 1 ≤ b.block_idx := (iblk b hm).1
                rw [litCountOf_append, bcount b.block_idx,
                  if_neg (by omega), icount b hm]
                omega
            · rw [List.chain'_append]
              refine ⟨bchain, ichain, ?_⟩
              intro x hx y hy
              rw [hrl] at hx
              rw [hs0] at hy
              simp only [Option.mem_def, Option.some.injEq] at hx hy
              subst hx
              subst hy
              exact stepOk_same_not_lh (by rw [hs0i2, hrli]) (by rw [hs0t]; simp)
            · refine ⟨r0, ?_, hr0t, hr0i⟩
              rw [List.head?_append, hr0]
              rfl
            · refine ⟨sl, ?_, ?_⟩
              · rw [List.getLast?_append, hsl]
                rfl
              · rw [hsli]
                simp only [List.length_cons]
                omega
            · intro j hj1 hj2
              simp only [List.length_cons] at hj2
              by_cases hjk : j = k
              · subst hjk
                obtain ⟨r, hr, hrt, hri⟩ := blh
                exact ⟨r, List.mem_append_left _ hr, hrt, hri⟩
              · obtain ⟨r, hr, hrt, hri⟩ := ilh j (by omega) (by omega)
                exact ⟨r, List.mem_append_right _ hr, hrt, hri⟩
            · simp only [List.map_cons, List.length_cons, bblkidx, imap]
              rw [List.range'_succ]
            · refine ⟨consumed + m1, by omega, ?_, ?_⟩
              · simp only [List.length_drop] at hm2
                omega
              · rw [hmleft, List.drop_drop]

theorem processFrames_spec {fuel : Nat} {input : List Nat} {ridx kNext rso : Nat}
    {out : List Nat} {rows : List WitnessRow} {lits : List Nat} {blks : List Block}
    {seqs : List Sequence} {out2 : List Nat} (hk : 1 ≤ kNext)
    (h : processFrames fuel input ridx kNext rso out =
      .ok (rows, lits, blks, seqs, out2)) :
    rows.map (fun r => r.byte_idx) = List.range' (ridx + 1) rows.length
    ∧ (∀ r ∈ rows, r.is_padding = false)
    ∧ 1 ≤ blks.length
    ∧ (∀ b ∈ blks, kNext ≤ b.block_idx ∧ b.block_idx ≤ kNext + blks.length - 1)
    ∧ (∀ r ∈ rows, r.block_idx ≤ kNext + blks.length - 1)
    ∧ (∀ r ∈ rows, r.tag = ZstdTag.LiteralsRawBytes → kNext ≤ r.block_idx)
    ∧ (∀ b ∈ blks, b.regen_size = litCountOf rows b.block_idx)
    ∧ List.Chain' stepOk rows
    ∧ (∃ r0 t0, rows = r0 :: t0 ∧ r0.tag = ZstdTag.FrameHeader ∧
        r0.block_idx = Nat.max (kNext - 1) 1)
    ∧ (∃ rl, rows.getLast? = some rl ∧ rl.block_idx = kNext + blks.length - 1)
    ∧ (∀ j, kNext ≤ j → j < kNext + blks.length →
        ∃ r ∈ rows, r.tag = ZstdTag.LiteralsHeader ∧ r.block_idx = j)
    ∧ blks.map (fun b => b.block_idx) = List.range' kNext blks.length := by
  induction fuel generalizing input ridx kNext rso out rows lits blks seqs out2 with
  | zero => simp [processFrames] at h
  | succ fuel ih =>
    match input with
    | [] => simp [processFrames] at h
    | [m0] => simp [processFrames] at h
    | [m0, m1] => simp [processFrames] at h
    | [m0, m1, m2] => simp [processFrames] at h
    | [m0, m1, m2, m3] => simp [processFrames] at h
    | m0 :: m1 :: m2 :: m3 :: d :: rest =>
      simp only [processFrames] at h
      split at h
      · split at h
        · split at h
          · rename_i hmagic hflags hextra
            split at h
            · simp at h
            · rename_i hdecv brows blits bblks bseqs bout brso bleft hdec
              obtain ⟨bmapi, bpad, bblen, bblk, bbound, blrb, bcount, bchain,
                ⟨br0, hbr0, hbr0t, hbr0i⟩, ⟨brl, hbrl, hbrli⟩, bllh, bmap, _⟩ :=
                decodeBlocks_spec hk hdec
              have hmaxle : Nat.max (kNext - 1) 1 ≤ kNext := Nat.max_le.mpr ⟨by omega, hk⟩
              have htlen : (rest.take ((1 - d / 32 % 2) +
                  fcsFieldLen (d / 64) (d / 32 % 2))).length =
                  (1 - d / 32 % 2) + fcsFieldLen (d / 64) (d / 32 % 2) := by
                simp [List.length_take]
                omega
              have hfhlen : (([m0, m1, m2, m3, d] ++ rest.take ((1 - d / 32 % 2) +
                  fcsFieldLen (d / 64) (d / 32 % 2))).length) =
                  5 + ((1 - d / 32 % 2) + fcsFieldLen (d / 64) (d / 32 % 2)) := by
                simp [htlen]
                omega
              have hGmap : (byteRows ZstdTag.FrameHeader (Nat.max (kNext - 1) 1) ridx rso
                  ([m0, m1, m2, m3, d] ++ rest.take ((1 - d / 32 % 2) +
                    fcsFieldLen (d / 64) (d / 32 % 2))) ++ brows).map
                  (fun r => r.byte_idx) =
                  List.range' (ridx + 1)
                    (5 + ((1 - d / 32 % 2) + fcsFieldLen (d / 64) (d / 32 % 2)) +
                      brows.length) := by
                rw [List.map_append, map_byteIdx_byteRows, hfhlen]
                have hB : brows.map (fun r => r.byte_idx) =
                    List.range' (ridx + 1 +
                      (5 + ((1 - d / 32 % 2) + fcsFieldLen (d / 64) (d / 32 % 2))))
                      brows.length := by
                  rw [bmapi]
                  congr 1
                  omega
                rw [hB, List.range'_append_1]
                congr 1
                omega
              have hGlen : (byteRows ZstdTag.FrameHeader (Nat.max (kNext - 1) 1) ridx rso
                  ([m0, m1, m2, m3, d] ++ rest.take ((1 - d / 32 % 2) +
                    fcsFieldLen (d / 64) (d / 32 % 2))) ++ brows).length =
                  5 + ((1 - d / 32 % 2) + fcsFieldLen (d / 64) (d / 32 % 2)) +
                    brows.length := by
                simp only [List.length_append, length_byteRows, hfhlen]
              have hGpad : ∀ r ∈ byteRows ZstdTag.FrameHeader (Nat.max (kNext - 1) 1) ridx
                  rso ([m0, m1, m2, m3, d] ++ rest.take ((1 - d / 32 % 2) +
                    fcsFieldLen (d / 64) (d / 32 % 2))) ++ brows,
                  r.is_padding = false := by
                intro r hr
                rcases List.mem_append.mp hr with hm | hm
                · exact (mem_byteRows hm).2.2
                · exact bpad r hm
              have hGbound : ∀ r ∈ byteRows ZstdTag.FrameHeader (Nat.max (kNext - 1) 1)
                  ridx rso ([m0, m1, m2, m3, d] ++ rest.take ((1 - d / 32 % 2) +
                    fcsFieldLen (d / 64) (d / 32 % 2))) ++ brows,
                  r.block_idx ≤ kNext + bblks.length - 1 := by
                intro r hr
                rcases List.mem_append.mp hr with hm | hm
                · rw [(mem_byteRows hm).2.1]
                  omega
                · have := bbound r hm
                  omega
              have hGlrb : ∀ r ∈ byteRows ZstdTag.FrameHeader (Nat.max (kNext - 1) 1) ridx
                  rso ([m0, m1, m2, m3, d] ++ rest.take ((1 - d / 32 % 2) +
                    fcsFieldLen (d / 64) (d / 32 % 2))) ++ brows,
                  r.tag = ZstdTag.LiteralsRawBytes → kNext ≤ r.block_idx := by
                intro r hr ht
                rcases List.mem_append.mp hr with hm | hm
                · rw [(mem_byteRows hm).1] at ht
                  simp at ht
                · exact blrb r hm ht
              have hGcount : ∀ b ∈ bblks, b.regen_size =
                  litCountOf (byteRows ZstdTag.FrameHeader (Nat.max (kNext - 1) 1) ridx
                    rso ([m0, m1, m2, m3, d] ++ rest.take ((1 - d / 32 % 2) +
                      fcsFieldLen (d / 64) (d / 32 % 2))) ++ brows) b.block_idx := by
                intro b hb
                rw [litCountOf_append, litCountOf_byteRows_ne_tag (by simp), bcount b hb]
                omega
              have hGchain : List.Chain' stepOk
                  (byteRows ZstdTag.FrameHeader (Nat.max (kNext - 1) 1) ridx rso
                    ([m0, m1, m2, m3, d] ++ rest.take ((1 - d / 32 % 2) +
                      fcsFieldLen (d / 64) (d / 32 % 2))) ++ brows) := by
                rw [List.chain'_append]
                refine ⟨chain'_stepOk_single
                    (fun r hr => ⟨(mem_byteRows hr).2.1, (mem_byteRows hr).1⟩), bchain, ?_⟩
                intro x hx y hy
                have hxm := List.mem_of_getLast?_eq_some (Option.mem_def.mp hx)
                rw [hbr0] at hy
                simp only [Option.mem_def, Option.some.injEq] at hy
                subst hy
                refine stepOk_same_not_lh ?_ (by rw [hbr0t]; simp)
                rw [hbr0i, (mem_byteRows hxm).2.1]
              have hGhead : byteRows ZstdTag.FrameHeader (Nat.max (kNext - 1) 1) ridx rso
                  ([m0, m1, m2, m3, d] ++ rest.take ((1 - d / 32 % 2) +
                    fcsFieldLen (d / 64) (d / 32 % 2))) ++ brows =
                  ⟨ZstdTag.FrameHeader, Nat.max (kNext - 1) 1, ridx + 1, m0, rso, false⟩ ::
                    ((byteRows ZstdTag.FrameHeader (Nat.max (kNext - 1) 1) (ridx + 1) rso
                      ([m1, m2, m3, d] ++ rest.take ((1 - d / 32 % 2) +
                        fcsFieldLen (d / 64) (d / 32 % 2)))) ++ brows) := by
                simp [byteRows]
              have hGlast : ∃ grl, (byteRows ZstdTag.FrameHeader (Nat.max (kNext - 1) 1)
                  ridx rso ([m0, m1, m2, m3, d] ++ rest.take ((1 - d / 32 % 2) +
                    fcsFieldLen (d / 64) (d / 32 % 2))) ++ brows).getLast? = some grl ∧
                  grl.block_idx = kNext + bblks.length - 1 := by
                refine ⟨brl, ?_, hbrli⟩
                rw [List.getLast?_append, hbrl]
                rfl
              have hGlh : ∀ j, kNext ≤ j → j < kNext + bblks.length →
                  ∃ r ∈ byteRows ZstdTag.FrameHeader (Nat.max (kNext - 1) 1) ridx rso
                    ([m0, m1, m2, m3, d] ++ rest.take ((1 - d / 32 % 2) +
                      fcsFieldLen (d / 64) (d / 32 % 2))) ++ brows,
                    r.tag = ZstdTag.LiteralsHeader ∧ r.block_idx = j := by
                intro j hj1 hj2
                obtain ⟨r, hr, hrt, hri⟩ := bllh j hj1 hj2
                exact ⟨r, List.mem_append_right _ hr, hrt, hri⟩
              split at h
              · simp only [Except.ok.injEq, Prod.mk.injEq] at h
                obtain ⟨h1, h2, h3, h4, h5⟩ := h
                subst h1 h2 h3 h4 h5
                exact ⟨hGmap.trans (by rw [hGlen]), hGpad, bblen, bblk, hGbound, hGlrb,
                  hGcount, hGchain, ⟨_, _, hGhead, rfl, rfl⟩, hGlast, hGlh, bmap⟩
              · split at h
                · simp at h
                · rename_i hrecv rows2 lits2 blks2 seqs2 outr hrec
                  simp only [Except.ok.injEq, Prod.mk.injEq] at h
                  obtain ⟨h1, h2, h3, h4, h5⟩ := h
                  subst h1 h2 h3 h4 h5
                  obtain ⟨imapi, ipad, ilen, iblk, iidx, ilrb, icount, ichain,
                    ⟨s0, st0, hscons, hs0t, hs0i⟩, ⟨sl, hsl, hsli⟩, ilh, imap⟩ :=
                    ih (by omega) hrec
                  have hs0i2 : s0.block_idx = kNext + bblks.length - 1 := by
                    rw [hs0i]
                    exact Nat.max_eq_left (by omega)
                  refine ⟨?_, ?_, ?_, ?_, ?_, ?_, ?_, ?_, ?_, ?_, ?_, ?_⟩
                  · have hB : rows2.map (fun r => r.byte_idx) =
                        List.range' (ridx + 1 +
                          (5 + ((1 - d / 32 % 2) + fcsFieldLen (d / 64) (d / 32 % 2)) +
                            brows.length)) rows2.length := by
                      rw [imapi]
                      congr 1
                      omega
                    rw [List.map_append, hGmap, hB, List.range'_append_1]
                    simp only [List.length_append, hGlen]
                    congr 1
                    omega
                  · intro r hr
                    rcases List.mem_append.mp hr with hm | hm
                    · exact hGpad r hm
                    · exact ipad r hm
                  · simp only [List.length_append]
                    omega
                  · intro b hb
                    simp only [List.length_append]
                    rcases List.mem_append.mp hb with hm | hm
                    · have := bblk b hm
                      omega
                    · have := iblk b hm
                      omega
                  · intro r hr
                    simp only [List.length_append]
                    rcases List.mem_append.mp hr with hm | hm
                    · have := hGbound r hm
                      omega
                    · have := iidx r hm
                      omega
                  · intro r hr ht
                    rcases List.mem_append.mp hr with hm | hm
                    · exact hGlrb r hm ht
                    · have := ilrb r hm ht
                      omega
                  · intro b hb
                    rw [litCountOf_append]
                    rcases List.mem_append.mp hb with hm | hm
                    · have hz : litCountOf rows2 b.block_idx = 0 := by
                        refine litCountOf_eq_zero ?_
                        intro r hr hc
                        have h1 := ilrb r hr hc.1
                        have h2 := (bblk b hm).2
                        rw [hc.2] at h1
                        omega
                      rw [hz, hGcount b hm]
                      omega
                    · have hz : litCountOf (byteRows ZstdTag.FrameHeader
                          (Nat.max (kNext - 1) 1) ridx rso ([m0, m1, m2, m3, d] ++
                            rest.take ((1 - d / 32 % 2) +
                              fcsFieldLen (d / 64) (d / 32 % 2))) ++ brows)
                          b.block_idx = 0 := by
                        refine litCountOf_eq_zero ?_
                        intro r hr hc
                        have h1 := hGbound r hr
                        have h2 := (iblk b hm).1
                        rw [hc.2] at h1
                        omega
                      rw [hz, icount b hm]
                      omega
                  · rw [List.chain'_append]
                    refine ⟨hGchain, ichain, ?_⟩
                    intro x hx y hy
                    obtain ⟨grl, hgrl, hgrli⟩ := hGlast
                    rw [hgrl] at hx
                    rw [hscons] at hy
                    simp only [Option.mem_def, Option.some.injEq, List.head?_cons] at hx hy
                    subst hx
                    subst hy
                    exact stepOk_same_not_lh (by rw [hs0i2, hgrli]) (by rw [hs0t]; simp)
                  · rw [hGhead]
                    exact ⟨_, _, by rw [List.cons_append], rfl, rfl⟩
                  · refine ⟨sl, ?_, ?_⟩
                    · rw [List.getLast?_append, hsl]
                      rfl
                    · rw [hsli]
                      simp only [List.length_append]
                      omega
                  · intro j hj1 hj2
                    simp only [List.length_append] at hj2
                    by_cases hjk : j < kNext + bblks.length
                    · obtain ⟨r, hr, hrt, hri⟩ := hGlh j hj1 hjk
                      exact ⟨r, List.mem_append_left _ hr, hrt, hri⟩
                    · obtain ⟨r, hr, hrt, hri⟩ := ilh j (by omega) (by omega)
                      exact ⟨r, List.mem_append_right _ hr, hrt, hri⟩
                  · rw [List.map_append, bmap, imap, List.length_append,
                      List.range'_append_1]
                    congr 1
                    omega
          · simp at h
        · simp at h
      · simp at h

theorem process_spec {input : List Nat} {res : MultiBlockProcessResult}
    (h : process input = .ok res) :
    res.witness_rows.map (fun r => r.byte_idx) = List.range' 1 res.witness_rows.length
    ∧ (∀ r ∈ res.witness_rows, r.is_padding = false)
    ∧ 1 ≤ res.block_info_arr.length
    ∧ (∃ r0 t0, res.witness_rows = r0 :: t0 ∧ r0.block_idx = 1)
    ∧ List.Chain' stepOk res.witness_rows
    ∧ (∃ rl, res.witness_rows.getLast? = some rl ∧
        rl.block_idx = res.block_info_arr.length ∧
        ∀ r ∈ res.witness_rows, r.block_idx ≤ rl.block_idx)
    ∧ (∀ j, 1 ≤ j → j ≤ res.block_info_arr.length →
        ∃ r ∈ res.witness_rows, r.tag = ZstdTag.LiteralsHeader ∧ r.block_idx = j)
    ∧ (∀ b ∈ res.block_info_arr, b.regen_size = litCountOf res.witness_rows b.block_idx)
    ∧ res.block_info_arr.map (fun b => b.block_idx) =
        List.range' 1 res.block_info_arr.length := by
  rw [process] at h
  split at h
  · simp at h
  · rename_i hpv rows lits blks seqs outv hpf
    simp only [Except.ok.injEq] at h
    subst h
    obtain ⟨hmap, hpad, hblen, hblk, hbound, hlrb, hcount, hchain,
      ⟨r0, t0, hcons, hr0t, hr0i⟩, ⟨rl, hrl, hrli⟩, hlh, hmapblk⟩ :=
      processFrames_spec (le_refl 1) hpf
    have hblen2 : 1 ≤ blks.length := hblen
    refine ⟨?_, hpad, hblen, ⟨r0, t0, hcons, by rw [hr0i]; rfl⟩, hchain,
      ⟨rl, hrl, ?_, ?_⟩, ?_, hcount, ?_⟩
    · simpa using hmap
    · show rl.block_idx = blks.length
      omega
    · intro r hr
      have := hbound r hr
      omega
    · intro j hj1 hj2
      have hj2b : j ≤ blks.length := hj2
      exact hlh j hj1 (by omega)
    · simpa using hmapblk

theorem decodeLiteralsHeader_mkCompressedLH (cs : Nat) (tail2 : List Nat)
    (hcs : cs < 262144) :
    decodeLiteralsHeader (mkCompressedLH cs ++ tail2) =
      .ok (⟨LitBlockType.Compressed, 3, 0, some cs⟩, 5) := by
  have hb0 : (14 + 4194304 * cs) % 256 = 14 := by omega
  have hshape : mkCompressedLH cs ++ tail2 =
      ((14 + 4194304 * cs) % 256) :: ((14 + 4194304 * cs) / 256 % 256) ::
      ((14 + 4194304 * cs) / 65536 % 256) :: ((14 + 4194304 * cs) / 16777216 % 256) ::
      ((14 + 4194304 * cs) / 4294967296 % 256) :: tail2 := by
    simp [mkCompressedLH]
  rw [hshape, hb0]
  simp only [decodeLiteralsHeader]
  rw [if_neg (by norm_num)]
  have hcb : lhCompBytes (14 / 4 % 4) = 5 := rfl
  rw [hcb]
  rw [if_pos (by simp)]
  have htk : ((14 : Nat) :: ((14 + 4194304 * cs) / 256 % 256) ::
      ((14 + 4194304 * cs) / 65536 % 256) :: ((14 + 4194304 * cs) / 16777216 % 256) ::
      ((14 + 4194304 * cs) / 4294967296 % 256) :: tail2).take 5 =
      [14, (14 + 4194304 * cs) / 256 % 256, (14 + 4194304 * cs) / 65536 % 256,
       (14 + 4194304 * cs) / 16777216 % 256, (14 + 4194304 * cs) / 4294967296 % 256] := rfl
  rw [htk]
  have hval : leVal [14, (14 + 4194304 * cs) / 256 % 256, (14 + 4194304 * cs) / 65536 % 256,
      (14 + 4194304 * cs) / 16777216 % 256, (14 + 4194304 * cs) / 4294967296 % 256] =
      14 + 4194304 * cs := by
    simp only [leVal]
    omega
  rw [hval]
  have hw : lhCompWidth (14 / 4 % 4) = 18 := rfl
  rw [hw]
  simp only [Except.ok.injEq, Prod.mk.injEq, LiteralsHeader.mk.injEq, and_true, true_and]
  refine ⟨?_, ?_, ?_⟩
  · rfl
  · omega
  · congr 1
    omega

theorem process_mkTruncated (nrem cs : Nat) (h1 : nrem < cs) (h2 : cs < 262144)
    (h3 : nrem < 1048576) :
    process (mkTruncated nrem cs) = Except.error DecodeError.TruncatedInput := by
  have hshape : mkTruncated nrem cs =
      40 :: 181 :: 47 :: 253 :: 0 :: (0 ::
        (((5 + 8 * (5 + nrem)) % 256) :: ((5 + 8 * (5 + nrem)) / 256 % 256) ::
         ((5 + 8 * (5 + nrem)) / 65536) ::
         (mkCompressedLH cs ++ List.replicate nrem 0))) := by
    simp [mkTruncated]
  have hpf : ∀ fuel, processFrames (fuel + 1) (mkTruncated nrem cs) 0 1 0 [] =
      Except.error DecodeError.TruncatedInput := by
    intro fuel
    rw [hshape]
    simp only [processFrames]
    rw [if_pos (by norm_num)]
    rw [if_pos (by norm_num)]
    have hx : (1 - (0 : Nat) / 32 % 2) + fcsFieldLen ((0 : Nat) / 64) ((0 : Nat) / 32 % 2) =
        1 := rfl
    rw [hx]
    rw [if_pos (by simp)]
    have hdrop1 : ∀ l : List Nat, ((0 : Nat) :: l).drop 1 = l := fun l => rfl
    rw [hdrop1]
    simp only [decodeBlocks]
    simp only [decodeBlock]
    have hbh : (5 + 8 * (5 + nrem)) % 256 + 256 * ((5 + 8 * (5 + nrem)) / 256 % 256) +
        65536 * ((5 + 8 * (5 + nrem)) / 65536) = 5 + 8 * (5 + nrem) := by
      omega
    rw [hbh]
    have hdiv : (5 + 8 * (5 + nrem)) / 8 = 5 + nrem := by omega
    rw [hdiv]
    have hlen : (mkCompressedLH cs ++ List.replicate nrem 0).length = 5 + nrem := by
      simp [mkCompressedLH]
      omega
    rw [if_pos (by omega)]
    have htk : (mkCompressedLH cs ++ List.replicate nrem 0).take (5 + nrem) =
        mkCompressedLH cs ++ List.replicate nrem 0 :=
      List.take_of_length_le (by omega)
    rw [htk]
    rw [decodeLiteralsSection, decodeLiteralsHeader_mkCompressedLH cs _ h2]
    simp only [Option.getD_some]
    rw [if_neg (by rw [hlen]; omega)]
  simp only [process]
  rw [hpf ((mkTruncated nrem cs).length)]

theorem length_modifyAt (f : LHTableRow → LHTableRow) :
    ∀ (i : Nat) (t : List LHTableRow), (modifyAt f i t).length = t.length := by
  intro i t
  induction t generalizing i with
  | nil => cases i <;> rfl
  | cons r tl ih =>
    cases i with
    | zero => rfl
    | succ ii => simp only [modifyAt, List.length_cons, ih]

theorem getElem?_modifyAt (f : LHTableRow → LHTableRow) :
    ∀ (i j : Nat) (t : List LHTableRow),
    (modifyAt f i t)[j]? = if i = j then (t[j]?).map f else t[j]? := by
  intro i j t
  induction t generalizing i j with
  | nil =>
    cases i <;> simp [modifyAt]
  | cons r tl ih =>
    cases i with
    | zero =>
      cases j with
      | zero => simp [modifyAt]
      | succ jj => simp [modifyAt]
    | succ ii =>
      cases j with
      | zero => simp [modifyAt]
      | succ jj =>
        simp only [modifyAt, List.getElem?_cons_succ, ih ii jj]
        by_cases hij : ii = jj
        · subst hij
          simp
        · rw [if_neg hij, if_neg (by omega)]

theorem allPairsB_false_of_pair (p : LHTableRow → LHTableRow → Bool) :
    ∀ (t : List LHTableRow) (i : Nat) (a b : LHTableRow),
    t[i]? = some a → t[i + 1]? = some b → p a b = false → allPairsB p t = false := by
  intro t
  induction t with
  | nil => intro i a b ha; simp at ha
  | cons x tl ih =>
    intro i a b ha hb hp
    cases tl with
    | nil =>
      cases i with
      | zero => simp at hb
      | succ ii => simp at hb
    | cons y tl2 =>
      cases i with
      | zero =>
        simp only [List.getElem?_cons_zero, Option.some.injEq] at ha
        simp only [List.getElem?_cons_succ, List.getElem?_cons_zero, Option.some.injEq] at hb
        subst ha
        subst hb
        simp only [allPairsB, hp, Bool.false_and]
      | succ ii =>
        simp only [List.getElem?_cons_succ] at ha
        have hb2 : (y :: tl2)[ii + 1]? = some b := by
          simp only [List.getElem?_cons_succ]
          simp only [List.getElem?_cons_succ] at hb
          exact hb
        have := ih ii a b ha hb2 hp
        simp only [allPairsB, this, Bool.and_false]

theorem allPairsB_true_of (p : LHTableRow → LHTableRow → Bool) :
    ∀ (t : List LHTableRow),
    (∀ (i : Nat) (a b : LHTableRow), t[i]? = some a → t[i + 1]? = some b → p a b = true) →
    allPairsB p t = true := by
  intro t
  induction t with
  | nil => intro hp; rfl
  | cons x tl ih =>
    intro hp
    cases tl with
    | nil => rfl
    | cons y tl2 =>
      simp only [allPairsB, Bool.and_eq_true]
      constructor
      · exact hp 0 x y rfl (by simp)
      · refine ih (fun i a b ha hb => hp (i + 1) a b ?_ ?_)
        · rw [List.getElem?_cons_succ]
          exact ha
        · rw [List.getElem?_cons_succ]
          exact hb

theorem lhTableEntries_length (rows : List WitnessRow) :
    (lhTableEntries rows).length =
      (((rows.getLast?).map (fun r => r.block_idx)).getD 0) := by
  simp [lhTableEntries]

theorem lhTableEntries_getElem (rows : List WitnessRow) (i : Nat)
    (hi : i < (lhTableEntries rows).length) :
    ∃ row, (lhTableEntries rows)[i]? = some row ∧ row.block_idx = i + 1 ∧
      row.is_padding = false ∧
      row.regen_size = regenSizeOf row.byte0 row.byte1 row.byte2 := by
  rw [lhTableEntries_length] at hi
  simp only [lhTableEntries, List.getElem?_map, List.getElem?_range hi, Option.map_some]
  exact ⟨_, rfl, rfl, rfl, rfl⟩

theorem lhTableAssign_length (rows : List WitnessRow) (n : Nat) :
    (lhTableAssign rows n).length =
      (lhTableEntries rows).length + (n - (lhTableEntries rows).length) := by
  simp only [lhTableAssign, List.length_append, List.length_replicate]

theorem lhTableAssign_getElem_lt (rows : List WitnessRow) (n j : Nat)
    (hj : j < (lhTableEntries rows).length) :
    (lhTableAssign rows n)[j]? = (lhTableEntries rows)[j]? := by
  rw [lhTableAssign, List.getElem?_append_left hj]

theorem lhTableAssign_getElem_ge (rows : List WitnessRow) (n j : Nat)
    (hj : (lhTableEntries rows).length ≤ j) (hj2 : j < (lhTableAssign rows n).length) :
    (lhTableAssign rows n)[j]? = some padTableRow := by
  rw [lhTableAssign, List.getElem?_append_right hj]
  rw [lhTableAssign_length] at hj2
  rw [List.getElem?_replicate, if_pos (by omega)]

theorem checkLHTable_assign (rows : List WitnessRow) (n : Nat) :
    checkLHTable (lhTableAssign rows n) = true := by
  rw [checkLHTable]
  have hhead : headOkB (lhTableAssign rows n) = true := by
    cases ht : lhTableAssign rows n with
    | nil => rfl
    | cons r tl =>
      have h0 : (lhTableAssign rows n)[0]? = some r := by
        rw [ht]
        simp
      simp only [headOkB]
      by_cases he : 0 < (lhTableEntries rows).length
      · rw [lhTableAssign_getElem_lt rows n 0 he] at h0
        obtain ⟨row, hrow, hidx, hpad, hreg⟩ := lhTableEntries_getElem rows 0 he
        rw [hrow] at h0
        injection h0 with h0
        rw [← h0, hidx, hpad]
        rfl
      · have hp0 : (lhTableAssign rows n)[0]? = some padTableRow := by
          apply lhTableAssign_getElem_ge rows n 0 (by omega)
          rw [ht]
          simp
        rw [h0] at hp0
        injection hp0 with hp0
        rw [hp0]
        rfl
  have hall : (lhTableAssign rows n).all rowOkB = true := by
    rw [List.all_eq_true]
    intro x hx
    rw [lhTableAssign] at hx
    rcases List.mem_append.mp hx with hm | hm
    · obtain ⟨i, hi⟩ := List.mem_iff_getElem?.mp hm
      have hlt : i < (lhTableEntries rows).length := by
        rcases List.getElem?_eq_some_iff.mp hi with ⟨hb, _⟩
        exact hb
      obtain ⟨row, hrow, hidx, hpad, hreg⟩ := lhTableEntries_getElem rows i hlt
      rw [hrow] at hi
      injection hi with hi
      rw [← hi, rowOkB, hpad, hreg]
      simp
    · rw [List.eq_of_mem_replicate hm]
      rfl
  have hpairs : allPairsB pairOkB (lhTableAssign rows n) = true := by
    refine allPairsB_true_of pairOkB _ (fun i a b ha hb => ?_)
    by_cases hlt : i + 1 < (lhTableEntries rows).length
    · rw [lhTableAssign_getElem_lt rows n (i + 1) hlt] at hb
      rw [lhTableAssign_getElem_lt rows n i (by omega)] at ha
      obtain ⟨rowa, hrowa, hidxa, hpada, _⟩ := lhTableEntries_getElem rows i (by omega)
      obtain ⟨rowb, hrowb, hidxb, hpadb, _⟩ := lhTableEntries_getElem rows (i + 1) hlt
      rw [hrowa] at ha
      rw [hrowb] at hb
      injection ha with ha
      injection hb with hb
      rw [← ha, ← hb, pairOkB, hpada, hpadb, hidxa, hidxb]
      simp
    · have hblen : i + 1 < (lhTableAssign rows n).length := by
        rcases List.getElem?_eq_some_iff.mp hb with ⟨hbb, _⟩
        exact hbb
      have : (lhTableAssign rows n)[i + 1]? = some padTableRow :=
        lhTableAssign_getElem_ge rows n (i + 1) (by omega) hblen
      rw [this] at hb
      injection hb with hb
      rw [pairOkB, ← hb]
      rfl
  rw [hhead, hall, hpairs]
  rfl

theorem checkLHTable_bumpBlockIdx (rows : List WitnessRow) (n i : Nat)
    (hi : i < (lhTableEntries rows).length) :
    checkLHTable (bumpBlockIdxAt (lhTableAssign rows n) i) = false := by
  obtain ⟨row, hrow, hidx, hpad, hreg⟩ := lhTableEntries_getElem rows i hi
  have hself : (bumpBlockIdxAt (lhTableAssign rows n) i)[i]? =
      some { row with block_idx := row.block_idx + 1 } := by
    rw [bumpBlockIdxAt, getElem?_modifyAt, if_pos rfl,
      lhTableAssign_getElem_lt rows n i hi, hrow]
    rfl
  rw [checkLHTable]
  cases i with
  | zero =>
    have hheadf : headOkB (bumpBlockIdxAt (lhTableAssign rows n) 0) = false := by
      cases ht : bumpBlockIdxAt (lhTableAssign rows n) 0 with
      | nil =>
        rw [ht] at hself
        simp at hself
      | cons r tl =>
        have h0 : (bumpBlockIdxAt (lhTableAssign rows n) 0)[0]? = some r := by
          rw [ht]
          simp
        rw [hself] at h0
        injection h0 with h0
        simp only [headOkB, ← h0, hpad, hidx]
        rfl
    rw [hheadf]
    rfl
  | succ ii =>
    obtain ⟨rowp, hrowp, hidxp, hpadp, _⟩ := lhTableEntries_getElem rows ii (by omega)
    have hprev : (bumpBlockIdxAt (lhTableAssign rows n) (ii + 1))[ii]? = some rowp := by
      rw [bumpBlockIdxAt, getElem?_modifyAt, if_neg (by omega),
        lhTableAssign_getElem_lt rows n ii (by omega), hrowp]
    have hpairf : allPairsB pairOkB (bumpBlockIdxAt (lhTableAssign rows n) (ii + 1)) =
        false := by
      refine allPairsB_false_of_pair pairOkB _ ii _ _ hprev hself ?_
      rw [pairOkB]
      simp only [hidxp, hpadp, hidx, hpad]
      simp
    rw [hpairf]
    simp

theorem checkLHTable_bumpRegenSize (rows : List WitnessRow) (n i : Nat)
    (hi : i < (lhTableEntries rows).length) :
    checkLHTable (bumpRegenSizeAt (lhTableAssign rows n) i) = false := by
  obtain ⟨row, hrow, hidx, hpad, hreg⟩ := lhTableEntries_getElem rows i hi
  have hself : (bumpRegenSizeAt (lhTableAssign rows n) i)[i]? =
      some { row with regen_size := row.regen_size + 1 } := by
    rw [bumpRegenSizeAt, getElem?_modifyAt, if_pos rfl,
      lhTableAssign_getElem_lt rows n i hi, hrow]
    rfl
  have hallf : (bumpRegenSizeAt (lhTableAssign rows n) i).all rowOkB = false := by
    have hmem := List.getElem?_mem hself
    rw [List.all_eq_false]
    refine ⟨_, hmem, ?_⟩
    rw [rowOkB]
    simp only [hpad, hreg]
    simp
  rw [checkLHTable, hallf]
  simp

theorem checkLHTable_clearPadding (rows : List WitnessRow) (n i : Nat)
    (hne : 1 ≤ (lhTableEntries rows).length)
    (hge : (lhTableEntries rows).length ≤ i) (hlt : i < (lhTableAssign rows n).length) :
    checkLHTable (clearPaddingAt (lhTableAssign rows n) i) = false := by
  have hself : (clearPaddingAt (lhTableAssign rows n) i)[i]? =
      some { padTableRow with is_padding := false } := by
    rw [clearPaddingAt, getElem?_modifyAt, if_pos rfl,
      lhTableAssign_getElem_ge rows n i hge hlt]
    rfl
  have hi1 : 1 ≤ i := by omega
  have hprevv : ∃ prev, (clearPaddingAt (lhTableAssign rows n) i)[i - 1]? = some prev ∧
      pairOkB prev { padTableRow with is_padding := false } = false := by
    by_cases hp : i - 1 < (lhTableEntries rows).length
    · obtain ⟨rowp, hrowp, hidxp, hpadp, _⟩ := lhTableEntries_getElem rows (i - 1) hp
      refine ⟨rowp, ?_, ?_⟩
      · rw [clearPaddingAt, getElem?_modifyAt, if_neg (by omega),
          lhTableAssign_getElem_lt rows n (i - 1) hp, hrowp]
      · rw [pairOkB]
        simp only [hidxp, hpadp]
        simp only [padTableRow]
        simp
    · refine ⟨padTableRow, ?_, ?_⟩
      · rw [clearPaddingAt, getElem?_modifyAt, if_neg (by omega),
          lhTableAssign_getElem_ge rows n (i - 1) (by omega) (by omega)]
      · rw [pairOkB]
        simp [padTableRow]
  obtain ⟨prev, hprev, hpf⟩ := hprevv
  have hpairf : allPairsB pairOkB (clearPaddingAt (lhTableAssign rows n) i) = false := by
    refine allPairsB_false_of_pair pairOkB _ (i - 1) _ _ hprev ?_ hpf
    rw [show i - 1 + 1 = i from by omega]
    exact hself
  rw [checkLHTable, hpairf]
  simp

theorem chain'_padMono_left {l : List WitnessRow}
    (h : ∀ r ∈ l, r.is_padding = false) :
    List.Chain' (fun r r' => r.is_padding = true → r'.is_padding = true) l := by
  induction l with
  | nil => exact List.chain'_nil
  | cons a t ih =>
    cases t with
    | nil => exact List.chain'_singleton a
    | cons b t2 =>
      refine List.Chain'.cons ?_ (ih fun r hr => h r (List.mem_cons_of_mem a hr))
      intro hpa
      rw [h a (by simp)] at hpa
      exact absurd hpa (by simp)

theorem chain'_padMono_replicate (m : Nat) (x : WitnessRow) :
    List.Chain' (fun r r' => r.is_padding = true → r'.is_padding = true)
      (List.replicate m x) := by
  induction m with
  | zero => exact List.chain'_nil
  | succ mm ih =>
    rw [List.replicate_succ]
    cases mm with
    | zero => exact List.chain'_singleton x
    | succ m2 =>
      rw [List.replicate_succ]
      refine List.Chain'.cons (fun hh => hh) ?_
      rw [← List.replicate_succ]
      exact ih

theorem chain'_padMono_padTrace (rows : List WitnessRow) (total : Nat)
    (hreal : ∀ r ∈ rows, r.is_padding = false) :
    List.Chain' (fun r r' => r.is_padding = true → r'.is_padding = true)
      (padTrace rows total) := by
  rw [padTrace]
  cases hl : rows.getLast? with
  | none => exact chain'_padMono_left hreal
  | some l =>
    rw [List.chain'_append]
    refine ⟨chain'_padMono_left hreal, chain'_padMono_replicate _ _, ?_⟩
    intro x hx y hy
    intro hpx
    have hxm := List.mem_of_getLast?_eq_some (Option.mem_def.mp hx)
    rw [hreal x hxm] at hpx
    exact absurd hpx (by simp)

/-- C1: on every successfully decoded input, the first witness row (hence the
first non-padding row — the real trace carries no padding) has block index 1,
and along the trace the block index never decreases, never skips a value and
increases by exactly 1 exactly at a new block's literals-header boundary
(`stepOk`); the assigned literals-header table passes the downstream
consistency check, and bumping any single assigned block index — the first
one (`UnsoundCase::IncorrectInitialBlockIdx`) or any mid-table one
(`UnsoundCase::IncorrectBlockIdxTransition`) — makes the check reject. -/
theorem trace_block_idx_progression {input : List Nat} {res : MultiBlockProcessResult}
    (h : process input = .ok res) :
    ((res.witness_rows.head?).map (fun r => r.block_idx) = some 1)
    ∧ List.Chain' stepOk res.witness_rows
    ∧ 1 ≤ (lhTableEntries res.witness_rows).length
    ∧ (∀ n, checkLHTable (lhTableAssign res.witness_rows n) = true)
    ∧ (∀ n i, i < (lhTableEntries res.witness_rows).length →
        checkLHTable (bumpBlockIdxAt (lhTableAssign res.witness_rows n) i) = false) := by
  obtain ⟨hmapi, hpad, hblen, ⟨r0, t0, hcons, hidx0⟩, hchain,
    ⟨rl, hrl, hrlidx, hbound⟩, hlh, hcount, hmapblk⟩ := process_spec h
  refine ⟨?_, hchain, ?_, fun n => checkLHTable_assign _ n,
    fun n i hi => checkLHTable_bumpBlockIdx _ n i hi⟩
  · rw [hcons]
    simp [hidx0]
  · rw [lhTableEntries_length, hrl]
    show 1 ≤ rl.block_idx
    omega

theorem trace_block_idx_progression_witness :
    ∃ res, process (encodeRaw [1] ++ encodeRaw [2, 3]) = Except.ok res ∧
      ((res.witness_rows.head?).map (fun r => r.block_idx) = some 1) ∧
      checkLHTable (lhTableAssign res.witness_rows 64) = true ∧
      checkLHTable (bumpBlockIdxAt (lhTableAssign res.witness_rows 64) 0) = false := by
  cases hp : process (encodeRaw [1] ++ encodeRaw [2, 3]) with
  | error e =>
    have hok : isOkB (process (encodeRaw [1] ++ encodeRaw [2, 3])) = true := by decide
    rw [hp] at hok
    exact Bool.noConfusion hok
  | ok r =>
    obtain ⟨h1, h2, h3, h4, h5⟩ := trace_block_idx_progression hp
    exact ⟨r, rfl, h1, h4 64, h5 64 0 (by omega)⟩

/-- C2: for every block of a successfully decoded input, the regenerated size
recorded in the block's literals header (carried in the per-block metadata)
equals the number of `LiteralsRawBytes` rows of the trace carrying that
block's index; the assigned literals-header table passes the downstream
consistency check, and bumping any single assigned regenerated size by one
(`UnsoundCase::IncorrectRegenSize`) makes the check reject. -/
theorem regen_size_matches_raw_count {input : List Nat} {res : MultiBlockProcessResult}
    (h : process input = .ok res) :
    (∀ blk ∈ res.block_info_arr,
        blk.regen_size = litCountOf res.witness_rows blk.block_idx)
    ∧ 1 ≤ (lhTableEntries res.witness_rows).length
    ∧ (∀ n, checkLHTable (lhTableAssign res.witness_rows n) = true)
    ∧ (∀ n i, i < (lhTableEntries res.witness_rows).length →
        checkLHTable (bumpRegenSizeAt (lhTableAssign res.witness_rows n) i) = false) := by
  obtain ⟨hmapi, hpad, hblen, ⟨r0, t0, hcons, hidx0⟩, hchain,
    ⟨rl, hrl, hrlidx, hbound⟩, hlh, hcount, hmapblk⟩ := process_spec h
  refine ⟨hcount, ?_, fun n => checkLHTable_assign _ n,
    fun n i hi => checkLHTable_bumpRegenSize _ n i hi⟩
  rw [lhTableEntries_length, hrl]
  show 1 ≤ rl.block_idx
  omega

theorem regen_size_matches_raw_count_witness :
    ∃ res, process rleExample = Except.ok res ∧
      (∀ blk ∈ res.block_info_arr,
        blk.regen_size = litCountOf res.witness_rows blk.block_idx) ∧
      checkLHTable (bumpRegenSizeAt (lhTableAssign res.witness_rows 64) 0) = false := by
  cases hp : process rleExample with
  | error e =>
    have hok : isOkB (process rleExample) = true := by decide
    rw [hp] at hok
    exact Bool.noConfusion hok
  | ok r =>
    obtain ⟨h1, h2, h3, h4⟩ := regen_size_matches_raw_count hp
    exact ⟨r, rfl, h1, h4 64 0 (by omega)⟩

/-- C3: on every successfully decoded input all real rows are non-padding, so
over any padded trace the padding flag is monotone non-decreasing (no 1 to 0
transition — all non-padding rows precede all padding rows); flipping an
`is_padding` cell of the padding section of the assigned table back to 0
(`UnsoundCase::IrregularPaddingTransition`) makes the downstream consistency
check reject. -/
theorem padding_monotonic {input : List Nat} {res : MultiBlockProcessResult}
    (h : process input = .ok res) :
    (∀ r ∈ res.witness_rows, r.is_padding = false)
    ∧ (∀ total, List.Chain' (fun r r' => r.is_padding = true → r'.is_padding = true)
        (padTrace res.witness_rows total))
    ∧ (∀ n i, (lhTableEntries res.witness_rows).length ≤ i →
        i < (lhTableAssign res.witness_rows n).length →
        checkLHTable (clearPaddingAt (lhTableAssign res.witness_rows n) i) = false) := by
  obtain ⟨hmapi, hpad, hblen, ⟨r0, t0, hcons, hidx0⟩, hchain,
    ⟨rl, hrl, hrlidx, hbound⟩, hlh, hcount, hmapblk⟩ := process_spec h
  have hne : 1 ≤ (lhTableEntries res.witness_rows).length := by
    rw [lhTableEntries_length, hrl]
    show 1 ≤ rl.block_idx
    omega
  exact ⟨hpad, fun total => chain'_padMono_padTrace _ total hpad,
    fun n i hi hlt => checkLHTable_clearPadding _ n i hne hi hlt⟩

theorem padding_monotonic_witness :
    ∃ res, process (encodeRaw [3]) = Except.ok res ∧
      (∀ r ∈ res.witness_rows, r.is_padding = false) ∧
      List.Chain' (fun r r' => r.is_padding = true → r'.is_padding = true)
        (padTrace res.witness_rows 32) ∧
      checkLHTable (clearPaddingAt (lhTableAssign res.witness_rows 8)
        (lhTableEntries res.witness_rows).length) = false := by
  cases hp : process (encodeRaw [3]) with
  | error e =>
    have hok : isOkB (process (encodeRaw [3])) = true := by decide
    rw [hp] at hok
    exact Bool.noConfusion hok
  | ok r =>
    obtain ⟨h1, h2, h3⟩ := padding_monotonic hp
    refine ⟨r, rfl, h1, h2 32, h3 8 (lhTableEntries r.witness_rows).length (le_refl _) ?_⟩
    rw [lhTableAssign_length]
    have he : (lhTableEntries r.witness_rows).length = 1 := by
      have : ((process (encodeRaw [3])).toOption.map
          (fun res => (lhTableEntries res.witness_rows).length)).getD 0 = 1 := by decide
      rw [hp] at this
      simpa using this
    omega

/-- C6: the decode call is deterministic — two calls on equal inputs return
equal results, in particular byte-identical witness rows and reconstructed
output (the embedding is a pure function, so this is definitional). -/
theorem process_deterministic (x y : List Nat) (hxy : x = y)
    {r r2 : MultiBlockProcessResult}
    (hx : process x = .ok r) (hy : process y = .ok r2) :
    r.witness_rows = r2.witness_rows ∧ r.output = r2.output ∧ r = r2 := by
  subst hxy
  rw [hx] at hy
  injection hy with hy
  subst hy
  exact ⟨rfl, rfl, rfl⟩

theorem process_deterministic_witness :
    ∃ r r2, process (encodeRaw [1, 2, 3]) = Except.ok r ∧
      process (encodeRaw [1, 2, 3]) = Except.ok r2 ∧
      r.witness_rows = r2.witness_rows ∧ r.output = r2.output := by
  cases hp : process (encodeRaw [1, 2, 3]) with
  | error e =>
    have hok : isOkB (process (encodeRaw [1, 2, 3])) = true := by decide
    rw [hp] at hok
    exact Bool.noConfusion hok
  | ok r =>
    obtain ⟨h1, h2, h3⟩ := process_deterministic (encodeRaw [1, 2, 3]) (encodeRaw [1, 2, 3])
      rfl hp hp
    exact ⟨r, r, rfl, rfl, h1, h2⟩

/-- C7 counterexample: the one-byte literals header `0x08` does decode in one
byte to a `Raw` header with regenerated size 1, but its `size_format` field
(bits `[2:4)` of byte 0, little-endian) is 2, not 0 as the claim states. -/
theorem lh_byte8_size_format_not_zero :
    decodeLiteralsHeader [8] =
      Except.ok (⟨LitBlockType.Raw, 2, 1, none⟩, 1) ∧
    decodeLiteralsHeader [8] ≠
      Except.ok (⟨LitBlockType.Raw, 0, 1, none⟩, 1) := by
  refine ⟨rfl, ?_⟩
  intro hc
  rw [show decodeLiteralsHeader [8] =
      Except.ok (⟨LitBlockType.Raw, 2, 1, none⟩, 1) from rfl] at hc
  simp at hc

/-- C7 (amended): decoding the one-byte literals header `0x08` (block_type =
Raw = 0 in bits `[0:2)`, size_format = 2 in bits `[2:4)`, value 1 in bits
`[3:8)`) yields a `Raw` literals header with regenerated size 1, consuming
exactly 1 input byte. -/
theorem lh_byte8_decodes_raw_size_one :
    decodeLiteralsHeader [8] =
      Except.ok (⟨LitBlockType.Raw, 2, 1, none⟩, 1) := rfl

/-- C8: an input whose literals header declares a compressed size larger than
the bytes remaining in the block makes the decode call return the
`TruncatedInput` error — never a panic, never a silent truncation — and, the
call returning an error, no partial trace or result is surfaced. -/
theorem truncated_compressed_size_error (nrem cs : Nat) (h1 : nrem < cs)
    (h2 : cs < 262144) (h3 : nrem < 1048576) :
    process (mkTruncated nrem cs) = Except.error DecodeError.TruncatedInput
    ∧ ∀ r, process (mkTruncated nrem cs) ≠ Except.ok r := by
  have hmain := process_mkTruncated nrem cs h1 h2 h3
  refine ⟨hmain, fun r hc => ?_⟩
  rw [hmain] at hc
  exact Except.noConfusion hc

theorem truncated_compressed_size_error_witness :
    process (mkTruncated 0 1) = Except.error DecodeError.TruncatedInput
    ∧ ∀ r, process (mkTruncated 0 1) ≠ Except.ok r :=
  truncated_compressed_size_error 0 1 (by norm_num) (by norm_num) (by norm_num)

/-- C9: padding a successfully decoded trace to a requested total row count
appends the padding as a single contiguous suffix of rows, each with
`is_padding = true` and replicating the final real row's `block_idx` and
`regenerated_size_so_far`, the real rows all being non-padding. -/
theorem padding_rows_replicate_last {input : List Nat} {res : MultiBlockProcessResult}
    (h : process input = .ok res) (total : Nat) :
    ∃ l, res.witness_rows.getLast? = some l ∧
      padTrace res.witness_rows total =
        res.witness_rows ++
          List.replicate (total - res.witness_rows.length) (padRow l)
      ∧ (∀ r ∈ List.replicate (total - res.witness_rows.length) (padRow l),
          r.is_padding = true ∧ r.block_idx = l.block_idx ∧
          r.regenerated_size_so_far = l.regenerated_size_so_far)
      ∧ (∀ r ∈ res.witness_rows, r.is_padding = false) := by
  obtain ⟨hmapi, hpad, hblen, ⟨r0, t0, hcons, hidx0⟩, hchain,
    ⟨rl, hrl, hrlidx, hbound⟩, hlh, hcount, hmapblk⟩ := process_spec h
  refine ⟨rl, hrl, ?_, ?_, hpad⟩
  · rw [padTrace, hrl]
  · intro r hr
    rw [List.eq_of_mem_replicate hr]
    exact ⟨rfl, rfl, rfl⟩

theorem padding_rows_replicate_last_witness :
    ∃ res, process (encodeRaw [4, 4]) = Except.ok res ∧
      ∃ l, res.witness_rows.getLast? = some l ∧
        padTrace res.witness_rows 40 =
          res.witness_rows ++
            List.replicate (40 - res.witness_rows.length) (padRow l) := by
  cases hp : process (encodeRaw [4, 4]) with
  | error e =>
    have hok : isOkB (process (encodeRaw [4, 4])) = true := by decide
    rw [hp] at hok
    exact Bool.noConfusion hok
  | ok r =>
    obtain ⟨l, h1, h2, h3, h4⟩ := padding_rows_replicate_last hp 40
    exact ⟨r, rfl, l, h1, h2⟩

/-- C10: every successfully decoded input yields a non-empty trace whose last
row's block index bounds every block index in the trace (it is the maximum),
and every block index from 1 up to that maximum is carried by at least one
`LiteralsHeader`-tagged row. -/
theorem last_block_idx_max_with_lh_rows {input : List Nat} {res : MultiBlockProcessResult}
    (h : process input = .ok res) :
    res.witness_rows ≠ []
    ∧ ∃ rl, res.witness_rows.getLast? = some rl ∧
      (∀ r ∈ res.witness_rows, r.block_idx ≤ rl.block_idx)
      ∧ ∀ k, 1 ≤ k → k ≤ rl.block_idx →
          ∃ r ∈ res.witness_rows, r.tag = ZstdTag.LiteralsHeader ∧ r.block_idx = k := by
  obtain ⟨hmapi, hpad, hblen, ⟨r0, t0, hcons, hidx0⟩, hchain,
    ⟨rl, hrl, hrlidx, hbound⟩, hlh, hcount, hmapblk⟩ := process_spec h
  refine ⟨by rw [hcons]; simp, rl, hrl, hbound, ?_⟩
  intro k hk1 hk2
  exact hlh k hk1 (by omega)

theorem last_block_idx_max_with_lh_rows_witness :
    ∃ res, process seqExample = Except.ok res ∧ res.witness_rows ≠ [] ∧
      ∃ rl, res.witness_rows.getLast? = some rl ∧
        ∃ r ∈ res.witness_rows, r.tag = ZstdTag.LiteralsHeader ∧ r.block_idx = 1 := by
  cases hp : process seqExample with
  | error e =>
    have hok : isOkB (process seqExample) = true := by decide
    rw [hp] at hok
    exact Bool.noConfusion hok
  | ok r =>
    obtain ⟨h1, rl, h2, h3, h4⟩ := last_block_idx_max_with_lh_rows hp
    refine ⟨r, rfl, h1, rl, h2, h4 1 (le_refl 1) ?_⟩
    have hone : ((process seqExample).toOption.map
        (fun res => ((res.witness_rows.getLast?).map (fun w => w.block_idx)).getD 0)).getD 0 =
        1 := by decide
    rw [hp] at hone
    have hone2 : ((r.witness_rows.getLast?).map (fun w => w.block_idx)).getD 0 = 1 := hone
    rw [h2] at hone2
    have hone3 : rl.block_idx = 1 := hone2
    omega

end ZstdDecode
